import Mathlib

/-!
Verification of the buffered streaming dataset loader
(`python/oxen/streaming_dataset.py` together with the path providers in
`python/oxen/providers/`).

The loader is a single-producer / single-consumer pipeline:

* a `Provider` exposes, for every path, a `(width, height)` size pair and a
  `slice(path, start, end)` operation returning the rows in `[start, end)`;
* `StreamingDataset.__init__` eagerly computes per-path sizes, the
  cumulative size table, and the overall `(width, height)` of the dataset;
* a background worker (`_start_bg_collection` / `_fetch_next_buffer`)
  repeatedly fetches buffers of `buffer_size` rows into a bounded window of
  `num_buffers` in-memory buffers;
* the consumer (`__getitem__`, driven by `__iter__`) reads rows out of the
  head buffer, evicting an exhausted head once a successor buffer is queued.

The embedding below is a direct translation of that code.  Path identifiers
are replaced by their position in `provider.paths` (the dataset only ever
passes `self._paths[path_idx]` to the provider, and `__init__` sizes the
paths in exactly that order), rows are an arbitrary type `α`, and machine
state is the cursor triple `path_idx` / `fetch_idx` / `buffer_idx` plus the
buffer window and a flag recording that the worker function returned.  The
worker body and the consumer body are translated statement by statement; the
`time.sleep` suspension points are modelled by interleaving: the step
relation `Step` lets the worker body, a head eviction, or a head read happen
in any order, and the deterministic executor used for whole-run theorems
runs one worker iteration wherever the Python code would sleep.  Inside
`_fetch_next_buffer` the worker only touches producer-owned fields
(`path_idx`, `fetch_idx`) and appends to the window tail, while the consumer
only touches `buffer_idx` and pops from the head, so modelling one fetch as
a single atomic step does not lose interleavings that are observable in the
shared state.
-/

set_option maxHeartbeats 1000000

namespace StreamingData

/-- An external `DatasetPathProvider`: an ordered family of paths (indexed by
position), a `size` operation returning `(width, height)` per path, and a
`slice` operation returning rows of a path by range. -/
structure Provider (α : Type) where
  numPaths : Nat
  size : Nat → Nat × Nat
  slice : Nat → Nat → Nat → List α

/-- `self._path_sizes = [self._provider.size(path) for path in self._paths]`. -/
def pathSizesOf (p : Provider α) : List (Nat × Nat) :=
  (List.range p.numPaths).map p.size

/-- The cumulative size table computed in `__init__`:
`[sum(size[1] for size in path_sizes[:i+1]) for i in range(len(path_sizes))]`. -/
def culmSizesOf (sizes : List (Nat × Nat)) : List Nat :=
  (List.range sizes.length).map (fun i => ((sizes.take (i + 1)).map (fun z => z.2)).sum)

/-- The immutable data a `StreamingDataset` holds after `__init__`:
the provider, the cumulative size table, the dataset size `(width, height)`,
and the `num_buffers` / `buffer_size` configuration. -/
structure Config (α : Type) where
  provider : Provider α
  culmSizes : List Nat
  width : Nat
  height : Nat
  numBuffers : Nat
  bufferSize : Nat

/-- `self._size`, the `(width, height)` pair stored by `__init__`. -/
def Config.size (cfg : Config α) : Nat × Nat := (cfg.width, cfg.height)

/-- `__len__`: `return self._size[1]`. -/
def datasetLen (cfg : Config α) : Nat := (Config.size cfg).2

/-- `StreamingDataset.__init__`.  Sizes every path eagerly, builds the
cumulative table, and derives `(width, height)`.  When `features is None`
the width is read from `self._path_sizes[0][0]`, which raises `IndexError`
on an empty path list; when a feature projection is supplied the width is
`len(features)` and no element of `path_sizes` is accessed. -/
def mkStreaming (p : Provider α) (features : Option (List String))
    (numBuffers : Nat) (bufferSize : Nat) : Except String (Config α) :=
  let pathSizes := pathSizesOf p
  let culmSizes := culmSizesOf pathSizes
  let height := (pathSizes.map (fun z => z.2)).sum
  match features with
  | none =>
    match pathSizes.head? with
    | none => Except.error "IndexError: list index out of range"
    | some sz0 =>
      Except.ok { provider := p, culmSizes := culmSizes, width := sz0.1,
                  height := height, numBuffers := numBuffers, bufferSize := bufferSize }
  | some fs =>
      Except.ok { provider := p, culmSizes := culmSizes, width := fs.length,
                  height := height, numBuffers := numBuffers, bufferSize := bufferSize }

/-- `OxenDataFrameProvider.__init__` rejects an empty path list with
`ValueError("Paths must not be empty")` before any provider exists. -/
def oxenDataFrameProviderInit (paths : List String) : Except String (List String) :=
  if paths.length = 0 then Except.error "Paths must not be empty"
  else Except.ok paths

/-- The mutable state shared by the worker and the consumer: the cursor
triple and the buffer window, plus a flag recording that the worker body
returned (`_start_bg_collection` hit its `return`). -/
structure State (α : Type) where
  pathIdx : Nat
  fetchIdx : Nat
  bufferIdx : Nat
  buffers : List (List α)
  workerDone : Bool
deriving DecidableEq, Repr

/-- The state right after `__init__`: all cursors zero, empty window. -/
def initState : State α :=
  { pathIdx := 0, fetchIdx := 0, bufferIdx := 0, buffers := [], workerDone := false }

/-- `self._buffers[0]` (defaulting to the empty buffer when the window is
empty; the source only reads the head under a non-emptiness check). -/
def headBuffer (s : State α) : List α := s.buffers.headD []

/-- `StreamingDataset._fetch_next_buffer`, verbatim: compute the path-local
window by subtracting the cumulative row count of all prior paths, call
`provider.slice`, advance `fetch_idx` by the returned length, and advance
`path_idx` once `fetch_idx` reaches the cumulative count through the current
path.  Returns the fetched buffer together with the updated state. -/
def fetchNextBuffer (cfg : Config α) (s : State α) : List α × State α :=
  let path_idx := s.pathIdx
  let start0 := s.fetchIdx
  let stop0 := s.fetchIdx + cfg.bufferSize
  let start := if 0 < path_idx then start0 - cfg.culmSizes.getD (path_idx - 1) 0 else start0
  let stop := if 0 < path_idx then stop0 - cfg.culmSizes.getD (path_idx - 1) 0 else stop0
  let buffer := cfg.provider.slice path_idx start stop
  let fetchIdx := s.fetchIdx + buffer.length
  let pathIdx := if cfg.culmSizes.getD path_idx 0 ≤ fetchIdx then path_idx + 1 else path_idx
  (buffer, { s with fetchIdx := fetchIdx, pathIdx := pathIdx })

/-- One iteration of the worker loop in `_start_bg_collection`: return when
`path_idx` has passed the path count, fetch and append a buffer when the
window has capacity, otherwise sleep (no state change). -/
def workerStep (cfg : Config α) (s : State α) : State α :=
  if s.workerDone then s
  else if cfg.provider.numPaths ≤ s.pathIdx then { s with workerDone := true }
  else if s.buffers.length < cfg.numBuffers then
    let bs := fetchNextBuffer cfg s
    { bs.2 with buffers := bs.2.buffers ++ [bs.1] }
  else s

/-- `self._buffers.popleft(); self._buffer_idx = 0`. -/
def popHead (s : State α) : State α :=
  { s with buffers := s.buffers.tail, bufferIdx := 0 }

/-- Reading `self._buffers[0][self._buffer_idx]` and then incrementing
`self._buffer_idx`; `none` when the read would be out of range. -/
def readHead (s : State α) : Option (α × State α) :=
  match (headBuffer s)[s.bufferIdx]? with
  | none => none
  | some v => some (v, { s with bufferIdx := s.bufferIdx + 1 })

/-- One pass through the body of the `__getitem__` wait loop: the
`time.sleep` is where the background worker runs (modelled as one worker
iteration), after which the head is evicted when more than one buffer is
queued and the head is exhausted. -/
def sleepStep (cfg : Config α) (s : State α) : State α :=
  let s1 := workerStep cfg s
  if 1 < s1.buffers.length ∧ (headBuffer s1).length ≤ s1.bufferIdx then popHead s1 else s1

/-- The `__getitem__` wait loop
`while len(self._buffers) < 1 or self._buffer_idx >= len(self._buffers[0])`,
fuelled; `none` models the loop polling forever within the given fuel. -/
def getItemLoop (cfg : Config α) : Nat → State α → Option (State α)
  | 0, _ => none
  | fuel + 1, s =>
    if s.buffers.length < 1 ∨ (headBuffer s).length ≤ s.bufferIdx then
      getItemLoop cfg fuel (sleepStep cfg s)
    else some s

/-- The body of `__getitem__` after the range check (the `features is None`
branch, which returns the native row): wait for a readable head, read the
row at `buffer_idx`, increment `buffer_idx`. -/
def getItemRaw (cfg : Config α) (fuel : Nat) (s : State α) : Option (α × State α) :=
  match getItemLoop cfg fuel s with
  | none => none
  | some s1 => readHead s1

/-- `__getitem__` with its range check
`if idx >= self._size[1]: raise IndexError(...)`.  The index is an integer
exactly as in Python; note the check has no lower bound. -/
def getItem (cfg : Config α) (fuel : Nat) (idx : Int) (s : State α) :
    Except String (Option (α × State α)) :=
  if (cfg.height : Int) ≤ idx then
    Except.error "Index out of range for dataset"
  else
    Except.ok (getItemRaw cfg fuel s)

/-- `__iter__`: `for i in range(len(self)): yield self[i]` — each index is in
range, so each call runs the body `getItemRaw`.  `none` when some call
exhausts its fuel. -/
def iterFrom (cfg : Config α) (fuel : Nat) : Nat → State α → Option (List α)
  | 0, _ => some []
  | n + 1, s =>
    match getItemRaw cfg fuel s with
    | none => none
    | some (v, s1) => (iterFrom cfg fuel n s1).map (fun l => v :: l)

/-- Fully iterating a freshly constructed dataset. -/
def iterateAll (cfg : Config α) (fuel : Nat) : Option (List α) :=
  iterFrom cfg fuel (datasetLen cfg) initState

/-- The producer-only fetch sequence: the buffers `_fetch_next_buffer`
returns, in order, until the worker loop would terminate. -/
def fetchAll (cfg : Config α) : Nat → State α → List (List α)
  | 0, _ => []
  | fuel + 1, s =>
    if cfg.provider.numPaths ≤ s.pathIdx then []
    else
      let bs := fetchNextBuffer cfg s
      bs.1 :: fetchAll cfg fuel bs.2

/-- Interleaving semantics: at any moment either the worker runs one loop
iteration, or the consumer (inside `__getitem__`) evicts an exhausted head
while more than one buffer is queued, or the consumer reads the row at
`buffer_idx` from the head. -/
inductive Step (cfg : Config α) : State α → State α → Prop where
  | worker : ∀ s, Step cfg s (workerStep cfg s)
  | pop : ∀ s, 1 < s.buffers.length → (headBuffer s).length ≤ s.bufferIdx →
      Step cfg s (popHead s)
  | read : ∀ s v s1, readHead s = some (v, s1) → Step cfg s s1

/-- States reachable from a freshly constructed dataset by any interleaving
of worker iterations and consumer actions. -/
def Reachable (cfg : Config α) (s : State α) : Prop :=
  Relation.ReflTransGen (Step cfg) initState s

/-- A provider honouring the §4.1 contract: `slice` returns at most the rows
remaining at the tail of the path (truncated, never padded). -/
def Truncating (p : Provider α) : Prop :=
  ∀ i s e, (p.slice i s e).length ≤ (p.size i).2 - s

/-- A provider whose `slice` returns at least one row whenever rows remain
in the targeted path and a non-empty range is requested. -/
def Progressing (p : Provider α) : Prop :=
  ∀ i s e, s < (p.size i).2 → s < e → 1 ≤ (p.slice i s e).length

/-- The concrete provider used by the exactness claims (and realized by
`MockPathProvider`): path `i` holds the row list `data[i]`, `size` reports
the true height, and `slice` returns exactly the rows `[start, min(end, height))`
(Python list slicing). -/
def listProvider (w : Nat) (data : List (List α)) : Provider α where
  numPaths := data.length
  size := fun i => (w, (data.getD i []).length)
  slice := fun i s e => ((data.getD i []).drop s).take (e - s)

/-- The per-path heights `[size[1] for size in path_sizes]`. -/
def heights (cfg : Config α) : List Nat :=
  (pathSizesOf cfg.provider).map (fun z => z.2)

/-- Prefix sums of the heights: the cumulative row count of the first `i`
paths. -/
def culmBefore (cfg : Config α) (i : Nat) : Nat := ((heights cfg).take i).sum

/-- A configuration as produced by `__init__`: the cumulative table and the
height are the ones computed from the provider. -/
def WF (cfg : Config α) : Prop :=
  cfg.culmSizes = culmSizesOf (pathSizesOf cfg.provider) ∧
    cfg.height = (heights cfg).sum

/-- Termination measure for the worker: fetch steps strictly decrease it. -/
def mu (cfg : Config α) (s : State α) : Nat :=
  (cfg.provider.numPaths - s.pathIdx) * (cfg.height + 1) + (cfg.height - s.fetchIdx)

/-- Producer-side invariant: `fetch_idx` always lies between the cumulative
row count of the paths before `path_idx` and the cumulative count through
`path_idx`, and never exceeds the dataset height. -/
structure FetchInv (cfg : Config α) (s : State α) : Prop where
  path_le : s.pathIdx ≤ cfg.provider.numPaths
  lower : culmBefore cfg s.pathIdx ≤ s.fetchIdx
  upper : s.pathIdx < cfg.provider.numPaths → s.fetchIdx ≤ culmBefore cfg (s.pathIdx + 1)
  total : s.fetchIdx ≤ cfg.height

/-- Consumer/window invariant: the window never holds more than
`num_buffers` buffers, `path_idx` never passes the path count, the cursor
in the head buffer never runs past its length (and is zero while the window
is empty), and the worker only returns after exhausting the paths.  These
facts need nothing from the provider. -/
structure SafeInv (cfg : Config α) (s : State α) : Prop where
  path_le : s.pathIdx ≤ cfg.provider.numPaths
  buf_le : s.buffers.length ≤ cfg.numBuffers
  idx_empty : s.buffers = [] → s.bufferIdx = 0
  idx_le : s.bufferIdx ≤ (headBuffer s).length
  done_path : s.workerDone = true → cfg.provider.numPaths ≤ s.pathIdx

/-- Variant for the consumer wait loop: every pass through the loop body
strictly decreases it while rows are still owed to the consumer. -/
def loopMeasure (cfg : Config α) (s : State α) : Nat :=
  (2 * cfg.numBuffers + 3) * mu cfg s + s.buffers.length +
    (if s.workerDone then 0 else 1)

/-- Ghost simulation invariant for whole-run correctness over the exact
list-backed provider: `k` rows have been yielded so far, of which `d` were
popped with evicted buffers and `buffer_idx` sit consumed in the head; the
window holds exactly the fetched-but-not-evicted rows
`data.flatten[d, fetch_idx)`; and the producer cursor is consistent. -/
def SimInv (cfg : Config α) (data : List (List α)) (s : State α) (k : Nat) : Prop :=
  ∃ d : Nat,
    k = d + s.bufferIdx ∧ d ≤ s.fetchIdx ∧
      s.buffers.flatten = (data.flatten.drop d).take (s.fetchIdx - d) ∧
      SafeInv cfg s ∧ FetchInv cfg s ∧
      (cfg.provider.numPaths ≤ s.pathIdx → s.fetchIdx = cfg.height)

/-- A list of states chained by `Step`. -/
def IsTrace (cfg : Config α) : List (State α) → Prop
  | [] => True
  | [_] => True
  | s :: s1 :: rest => Step cfg s s1 ∧ IsTrace cfg (s1 :: rest)

/-- The number of positions along a trace at which the buffer window grew;
only a worker fetch appends to the window, so this counts the fetch steps. -/
def fetchCount : List (State α) → Nat
  | s :: s1 :: rest =>
    (if s.buffers.length < s1.buffers.length then 1 else 0) + fetchCount (s1 :: rest)
  | _ => 0

/-- Concrete three-path dataset (heights 2, 0, 3) used as a witness input. -/
def exData : List (List Nat) := [[0, 1], [], [2, 3, 4]]

/-- The configuration `__init__` builds over `exData` with
`num_buffers = 2`, `buffer_size = 2` and no feature projection. -/
def exCfg : Config Nat :=
  { provider := listProvider 7 exData, culmSizes := [2, 2, 5], width := 7, height := 5,
    numBuffers := 2, bufferSize := 2 }

/-- Scenario C input: a single path of height 10. -/
def scenData : List (List Nat) := [[0, 1, 2, 3, 4, 5, 6, 7, 8, 9]]

/-- Scenario C configuration: `buffer_size = 3`, `num_buffers = 2`. -/
def scenCfg : Config Nat :=
  { provider := listProvider 1 scenData, culmSizes := [10], width := 1, height := 10,
    numBuffers := 2, bufferSize := 3 }

/-- A one-path, one-row dataset used for reachability witnesses. -/
def oneData : List (List Nat) := [[0]]

/-- Configuration over `oneData`. -/
def oneCfg : Config Nat :=
  { provider := listProvider 1 oneData, culmSizes := [1], width := 1, height := 1,
    numBuffers := 2, bufferSize := 1 }

/-- The configuration `__init__` accepts for an empty provider once a
feature projection is supplied. -/
def emptyOkCfg : Config Nat :=
  { provider := listProvider 1 ([] : List (List Nat)), culmSizes := [],
    width := 1, height := 0, numBuffers := 3, bufferSize := 128 }

/-- A consumer state over `exCfg` whose head buffer is readable. -/
def readyS : State Nat :=
  { pathIdx := 0, fetchIdx := 2, bufferIdx := 0, buffers := [[7, 8]], workerDone := false }

/-- A worker state over `exCfg` positioned at the zero-height second path. -/
def midExS : State Nat :=
  { pathIdx := 1, fetchIdx := 2, bufferIdx := 0, buffers := [[0, 1]], workerDone := false }

/-! ### Arithmetic of the cumulative size table -/

theorem length_pathSizesOf (p : Provider α) :
    (pathSizesOf p).length = p.numPaths := by
  simp [pathSizesOf]

theorem length_heights (cfg : Config α) :
    (heights cfg).length = cfg.provider.numPaths := by
  simp [heights, length_pathSizesOf]

theorem heights_getD (cfg : Config α) {i : Nat} (hi : i < cfg.provider.numPaths) :
    (heights cfg).getD i 0 = (cfg.provider.size i).2 := by
  have hlen : i < (heights cfg).length := by rw [length_heights]; exact hi
  rw [List.getD_eq_getElem _ _ hlen]
  simp [heights, pathSizesOf, List.getElem_map, List.getElem_range]

theorem culmSizesOf_length (sizes : List (Nat × Nat)) :
    (culmSizesOf sizes).length = sizes.length := by
  simp [culmSizesOf]

theorem culmSizes_getD (cfg : Config α) (hWF : WF cfg) {i : Nat}
    (hi : i < cfg.provider.numPaths) :
    cfg.culmSizes.getD i 0 = culmBefore cfg (i + 1) := by
  have hlen : i < (culmSizesOf (pathSizesOf cfg.provider)).length := by
    rw [culmSizesOf_length, length_pathSizesOf]; exact hi
  rw [hWF.1, List.getD_eq_getElem _ _ hlen]
  simp only [culmSizesOf, List.getElem_map, List.getElem_range]
  rw [culmBefore, heights, List.map_take]

theorem culmBefore_zero (cfg : Config α) : culmBefore cfg 0 = 0 := by
  simp [culmBefore]

theorem sum_take_le_sum (l : List Nat) (i : Nat) : (l.take i).sum ≤ l.sum := by
  have h := List.sum_take_add_sum_drop l i
  omega

theorem culmBefore_le_height (cfg : Config α) (hWF : WF cfg) (i : Nat) :
    culmBefore cfg i ≤ cfg.height := by
  rw [hWF.2]
  exact sum_take_le_sum _ _

theorem culmBefore_succ (cfg : Config α) {i : Nat} (hi : i < cfg.provider.numPaths) :
    culmBefore cfg (i + 1) = culmBefore cfg i + (heights cfg).getD i 0 := by
  have hlen : i < (heights cfg).length := by rw [length_heights]; exact hi
  rw [culmBefore, culmBefore, List.sum_take_succ _ _ hlen,
    List.getD_eq_getElem _ _ hlen]

theorem culmBefore_mono (cfg : Config α) {i j : Nat} (h : i ≤ j) :
    culmBefore cfg i ≤ culmBefore cfg j := by
  rw [culmBefore, culmBefore]
  have : (heights cfg).take i = ((heights cfg).take j).take i := by
    rw [List.take_take, Nat.min_eq_left h]
  rw [this]
  exact sum_take_le_sum _ _

theorem culmBefore_of_numPaths_le (cfg : Config α) (hWF : WF cfg) {i : Nat}
    (hi : cfg.provider.numPaths ≤ i) : culmBefore cfg i = cfg.height := by
  rw [culmBefore, hWF.2, List.take_of_length_le]
  rw [length_heights]; exact hi

/-! ### The configuration produced by `__init__` -/

theorem mkStreaming_ok {p : Provider α} {features : Option (List String)}
    {nb bs : Nat} {cfg : Config α}
    (h : mkStreaming p features nb bs = Except.ok cfg) :
    cfg.provider = p ∧ WF cfg ∧ cfg.numBuffers = nb ∧ cfg.bufferSize = bs ∧
      cfg.height = ((pathSizesOf p).map (fun z => z.2)).sum ∧
      cfg.width = (match features with
        | none => (p.size 0).1
        | some fs => fs.length) := by
  unfold mkStreaming at h
  match features with
  | none =>
    simp only at h
    match hh : (pathSizesOf p).head? with
    | none => rw [hh] at h; exact absurd h (by simp)
    | some sz0 =>
      rw [hh] at h
      simp only [Except.ok.injEq] at h
      subst h
      have hne : pathSizesOf p ≠ [] := by
        intro he; rw [he] at hh; simp at hh
      have h0 : 0 < p.numPaths := by
        have := List.length_pos.mpr hne
        rw [length_pathSizesOf] at this; exact this
      have hsz : sz0 = p.size 0 := by
        have h0' : 0 < (pathSizesOf p).length := by rw [length_pathSizesOf]; exact h0
        have := List.head?_eq_getElem? (pathSizesOf p)
        rw [hh, List.getElem?_eq_getElem h0'] at this
        have hv : sz0 = (pathSizesOf p)[0] := by
          exact Option.some.inj this
        rw [hv]
        simp [pathSizesOf, List.getElem_map, List.getElem_range]
      refine ⟨rfl, ⟨rfl, ?_⟩, rfl, rfl, rfl, ?_⟩
      · rfl
      · simp [hsz]
  | some fs =>
    simp only [Except.ok.injEq] at h
    subst h
    exact ⟨rfl, ⟨rfl, rfl⟩, rfl, rfl, rfl, rfl⟩

/-! ### The fetch step -/

theorem fetchInv_init (cfg : Config α) : FetchInv cfg (initState (α := α)) := by
  constructor <;> simp [initState, culmBefore]

/-- What `_fetch_next_buffer` computes, written with the path-local window
made explicit: under the producer invariant the global window
`[fetch_idx, fetch_idx + buffer_size)` translates to the path-local window
`[start, start + buffer_size)` with `start = fetch_idx - culm_before`. -/
theorem fetch_spec (cfg : Config α) (hWF : WF cfg) (s : State α)
    (hp : s.pathIdx < cfg.provider.numPaths)
    (hlow : culmBefore cfg s.pathIdx ≤ s.fetchIdx) :
    (fetchNextBuffer cfg s).1 =
        cfg.provider.slice s.pathIdx (s.fetchIdx - culmBefore cfg s.pathIdx)
          (s.fetchIdx - culmBefore cfg s.pathIdx + cfg.bufferSize) ∧
      (fetchNextBuffer cfg s).2.fetchIdx = s.fetchIdx + (fetchNextBuffer cfg s).1.length ∧
      (fetchNextBuffer cfg s).2.pathIdx =
        (if culmBefore cfg (s.pathIdx + 1) ≤ s.fetchIdx + (fetchNextBuffer cfg s).1.length
          then s.pathIdx + 1 else s.pathIdx) ∧
      (fetchNextBuffer cfg s).2.bufferIdx = s.bufferIdx ∧
      (fetchNextBuffer cfg s).2.buffers = s.buffers ∧
      (fetchNextBuffer cfg s).2.workerDone = s.workerDone := by
  have hculm : cfg.culmSizes.getD s.pathIdx 0 = culmBefore cfg (s.pathIdx + 1) :=
    culmSizes_getD cfg hWF hp
  by_cases h0 : 0 < s.pathIdx
  · have h1 : s.pathIdx - 1 < cfg.provider.numPaths := by omega
    have hprev : cfg.culmSizes.getD (s.pathIdx - 1) 0 = culmBefore cfg s.pathIdx := by
      rw [culmSizes_getD cfg hWF h1]
      congr 1
      omega
    have hstop : s.fetchIdx + cfg.bufferSize - culmBefore cfg s.pathIdx
        = s.fetchIdx - culmBefore cfg s.pathIdx + cfg.bufferSize := by omega
    simp only [fetchNextBuffer, h0, if_pos, hprev, hculm, hstop]
    simp
  · have hz : s.pathIdx = 0 := by omega
    have hzero : culmBefore cfg s.pathIdx = 0 := by rw [hz, culmBefore_zero]
    simp only [fetchNextBuffer, h0, if_false, hculm, hzero, Nat.sub_zero]
    simp

/-- Under the §4.1 provider contract the fetched buffer never runs past the
end of the current path: the new `fetch_idx` stays within the cumulative
count through `path_idx`. -/
theorem fetch_len_le (cfg : Config α) (hT : Truncating cfg.provider) (hWF : WF cfg)
    (s : State α) (hp : s.pathIdx < cfg.provider.numPaths)
    (hlow : culmBefore cfg s.pathIdx ≤ s.fetchIdx)
    (hup : s.fetchIdx ≤ culmBefore cfg (s.pathIdx + 1)) :
    s.fetchIdx + (fetchNextBuffer cfg s).1.length ≤ culmBefore cfg (s.pathIdx + 1) := by
  obtain ⟨hb, -⟩ := fetch_spec cfg hWF s hp hlow
  have hlen := hT s.pathIdx (s.fetchIdx - culmBefore cfg s.pathIdx)
    (s.fetchIdx - culmBefore cfg s.pathIdx + cfg.bufferSize)
  rw [← hb] at hlen
  have hsucc : culmBefore cfg (s.pathIdx + 1)
      = culmBefore cfg s.pathIdx + (heights cfg).getD s.pathIdx 0 :=
    culmBefore_succ cfg hp
  rw [heights_getD cfg hp] at hsucc
  omega

theorem fetch_inv (cfg : Config α) (hT : Truncating cfg.provider) (hWF : WF cfg)
    {s : State α} (hinv : FetchInv cfg s) (hp : s.pathIdx < cfg.provider.numPaths) :
    FetchInv cfg (fetchNextBuffer cfg s).2 := by
  obtain ⟨-, hf, hpi, -, -, -⟩ := fetch_spec cfg hWF s hp hinv.lower
  have hle := fetch_len_le cfg hT hWF s hp hinv.lower (hinv.upper hp)
  have hheight := culmBefore_le_height cfg hWF (s.pathIdx + 1)
  by_cases hadv : culmBefore cfg (s.pathIdx + 1)
      ≤ s.fetchIdx + (fetchNextBuffer cfg s).1.length
  · rw [if_pos hadv] at hpi
    refine ⟨?_, ?_, ?_, ?_⟩
    · rw [hpi]; omega
    · rw [hpi, hf]; exact hadv
    · intro hlt
      rw [hpi] at hlt ⊢
      rw [hf]
      exact le_trans hle (culmBefore_mono cfg (by omega))
    · rw [hf]; omega
  · rw [if_neg hadv] at hpi
    refine ⟨?_, ?_, ?_, ?_⟩
    · rw [hpi]; omega
    · rw [hpi, hf]; have := hinv.lower; omega
    · intro _; rw [hpi, hf]; exact hle
    · rw [hf]; omega

/-- Worker progress: when the provider reports accurate sizes (truncating
slices that return at least one row while rows remain) and `buffer_size ≥ 1`,
every fetch strictly decreases the termination measure. -/
theorem fetch_mu_lt (cfg : Config α) (hT : Truncating cfg.provider)
    (hP : Progressing cfg.provider) (hWF : WF cfg) {s : State α}
    (hinv : FetchInv cfg s) (hp : s.pathIdx < cfg.provider.numPaths)
    (hbs : 1 ≤ cfg.bufferSize) :
    mu cfg (fetchNextBuffer cfg s).2 < mu cfg s := by
  obtain ⟨hb, hf, hpi, -, -, -⟩ := fetch_spec cfg hWF s hp hinv.lower
  have hle := fetch_len_le cfg hT hWF s hp hinv.lower (hinv.upper hp)
  have hheight := culmBefore_le_height cfg hWF (s.pathIdx + 1)
  have hsucc : culmBefore cfg (s.pathIdx + 1)
      = culmBefore cfg s.pathIdx + (heights cfg).getD s.pathIdx 0 :=
    culmBefore_succ cfg hp
  rw [heights_getD cfg hp] at hsucc
  by_cases hst : s.fetchIdx - culmBefore cfg s.pathIdx < (cfg.provider.size s.pathIdx).2
  · -- rows remain in the current path: the slice is non-empty
    have hlen : 1 ≤ (fetchNextBuffer cfg s).1.length := by
      rw [hb]
      exact hP s.pathIdx _ _ hst (by omega)
    by_cases hadv : culmBefore cfg (s.pathIdx + 1)
        ≤ s.fetchIdx + (fetchNextBuffer cfg s).1.length
    · rw [if_pos hadv] at hpi
      have hstep : cfg.provider.numPaths - s.pathIdx
          = (cfg.provider.numPaths - (s.pathIdx + 1)) + 1 := by omega
      rw [mu, mu, hpi, hf, hstep, Nat.succ_mul]
      have hsub : cfg.height - (s.fetchIdx + (fetchNextBuffer cfg s).1.length)
          ≤ cfg.height := by omega
      omega
    · rw [if_neg hadv] at hpi
      rw [mu, mu, hpi, hf]
      have hlt : s.fetchIdx < cfg.height := by omega
      omega
  · -- the path is already exhausted: empty buffer, advance the path index
    have hlen : (fetchNextBuffer cfg s).1.length = 0 := by
      have := hT s.pathIdx (s.fetchIdx - culmBefore cfg s.pathIdx)
        (s.fetchIdx - culmBefore cfg s.pathIdx + cfg.bufferSize)
      rw [← hb] at this
      omega
    have hadv : culmBefore cfg (s.pathIdx + 1)
        ≤ s.fetchIdx + (fetchNextBuffer cfg s).1.length := by
      have := hinv.lower
      omega
    rw [if_pos hadv] at hpi
    have hstep : cfg.provider.numPaths - s.pathIdx
        = (cfg.provider.numPaths - (s.pathIdx + 1)) + 1 := by omega
    rw [mu, mu, hpi, hf, hstep, Nat.succ_mul]
    omega

/-! ### Window-side invariant, preserved by every interleaving -/

theorem safeInv_init (cfg : Config α) : SafeInv cfg (initState (α := α)) := by
  constructor <;> simp [initState, headBuffer]

theorem headD_append_single (l : List (List α)) (b : List α) (h : l ≠ []) :
    (l ++ [b]).headD [] = l.headD [] := by
  cases l with
  | nil => exact absurd rfl h
  | cons a t => rfl

theorem fetchNextBuffer_frame (cfg : Config α) (s : State α) :
    (fetchNextBuffer cfg s).2.bufferIdx = s.bufferIdx ∧
      (fetchNextBuffer cfg s).2.buffers = s.buffers ∧
      (fetchNextBuffer cfg s).2.workerDone = s.workerDone ∧
      s.pathIdx ≤ (fetchNextBuffer cfg s).2.pathIdx ∧
      (fetchNextBuffer cfg s).2.pathIdx ≤ s.pathIdx + 1 ∧
      s.fetchIdx ≤ (fetchNextBuffer cfg s).2.fetchIdx := by
  unfold fetchNextBuffer
  dsimp only
  refine ⟨rfl, rfl, rfl, ?_, ?_, ?_⟩ <;> (repeat' split) <;> omega

theorem readHead_some {s : State α} {v : α} {s1 : State α}
    (h : readHead s = some (v, s1)) :
    s.bufferIdx < (headBuffer s).length ∧ (headBuffer s)[s.bufferIdx]? = some v ∧
      s1 = { s with bufferIdx := s.bufferIdx + 1 } := by
  unfold readHead at h
  cases hq : (headBuffer s)[s.bufferIdx]? with
  | none => rw [hq] at h; exact absurd h (by simp)
  | some w =>
    rw [hq] at h
    simp only [Option.some.injEq, Prod.mk.injEq] at h
    obtain ⟨hw, hs⟩ := h
    refine ⟨?_, ?_, hs.symm⟩
    · exact (List.getElem?_eq_some.mp hq).1
    · rw [hw]

theorem safeInv_worker (cfg : Config α) {s : State α} (h : SafeInv cfg s) :
    SafeInv cfg (workerStep cfg s) := by
  unfold workerStep
  by_cases hd : s.workerDone = true
  · simp only [hd, if_true]; exact h
  · simp only [hd, if_false]
    by_cases hN : cfg.provider.numPaths ≤ s.pathIdx
    · simp only [hN, if_true]
      exact ⟨h.path_le, h.buf_le, h.idx_empty, h.idx_le, fun _ => hN⟩
    · simp only [hN, if_false]
      by_cases hcap : s.buffers.length < cfg.numBuffers
      · simp only [hcap, if_true]
        obtain ⟨hbi, hbu, hwd, hp1, hp2, -⟩ := fetchNextBuffer_frame cfg s
        refine ⟨?_, ?_, ?_, ?_, ?_⟩
        · show (fetchNextBuffer cfg s).2.pathIdx ≤ _
          omega
        · show (s.buffers ++ [(fetchNextBuffer cfg s).1]).length ≤ _
          rw [List.length_append]
          simp only [List.length_cons, List.length_nil]
          omega
        · intro hc
          exact absurd hc (by simp)
        · show (fetchNextBuffer cfg s).2.bufferIdx
            ≤ ((s.buffers ++ [(fetchNextBuffer cfg s).1]).headD []).length
          rw [hbi]
          by_cases hbe : s.buffers = []
          · rw [h.idx_empty hbe]
            exact Nat.zero_le _
          · rw [headD_append_single _ _ hbe]
            exact h.idx_le
        · show (fetchNextBuffer cfg s).2.workerDone = true → _
          rw [hwd]
          intro hc
          exact absurd hc hd
      · simp only [hcap, if_false]; exact h

theorem safeInv_pop (cfg : Config α) {s : State α} (h : SafeInv cfg s) :
    SafeInv cfg (popHead s) := by
  refine ⟨h.path_le, ?_, fun _ => rfl, ?_, h.done_path⟩
  · show s.buffers.tail.length ≤ _
    rw [List.length_tail]
    have := h.buf_le
    omega
  · show (0 : Nat) ≤ _
    exact Nat.zero_le _

theorem safeInv_step (cfg : Config α) {s s' : State α} (h : SafeInv cfg s)
    (hs : Step cfg s s') : SafeInv cfg s' := by
  cases hs with
  | worker => exact safeInv_worker cfg h
  | pop h1 h2 => exact safeInv_pop cfg h
  | read v s1 hr =>
    obtain ⟨hlt, -, heq⟩ := readHead_some hr
    subst heq
    refine ⟨h.path_le, h.buf_le, ?_, ?_, h.done_path⟩
    · intro hbe
      exfalso
      have : headBuffer s = [] := by rw [headBuffer, hbe]; rfl
      rw [this] at hlt
      simp at hlt
    · show s.bufferIdx + 1 ≤ (headBuffer s).length
      omega

theorem safeInv_reachable (cfg : Config α) {s : State α} (h : Reachable cfg s) :
    SafeInv cfg s := by
  induction h with
  | refl => exact safeInv_init cfg
  | tail h1 h2 ih => exact safeInv_step cfg ih h2

theorem fetchInv_workerStep (cfg : Config α) (hT : Truncating cfg.provider)
    (hWF : WF cfg) {s : State α} (h : FetchInv cfg s) :
    FetchInv cfg (workerStep cfg s) := by
  unfold StreamingData.workerStep
  by_cases hd : s.workerDone = true
  · simp only [hd, if_true]; exact h
  · simp only [hd, if_false]
    by_cases hN : cfg.provider.numPaths ≤ s.pathIdx
    · simp only [hN, if_true]
      exact ⟨h.path_le, h.lower, h.upper, h.total⟩
    · simp only [hN, if_false]
      by_cases hcap : s.buffers.length < cfg.numBuffers
      · simp only [hcap, if_true]
        have hfi := fetch_inv cfg hT hWF h (by omega)
        exact ⟨hfi.path_le, hfi.lower, hfi.upper, hfi.total⟩
      · simp only [hcap, if_false]; exact h

theorem fetchInv_step (cfg : Config α) (hT : Truncating cfg.provider)
    (hWF : WF cfg) {s s' : State α} (h : FetchInv cfg s) (hs : Step cfg s s') :
    FetchInv cfg s' := by
  cases hs with
  | worker => exact fetchInv_workerStep cfg hT hWF h
  | pop h1 h2 => exact ⟨h.path_le, h.lower, h.upper, h.total⟩
  | read v s1 hr =>
    obtain ⟨-, -, heq⟩ := readHead_some hr
    subst heq
    exact ⟨h.path_le, h.lower, h.upper, h.total⟩

theorem fetchInv_reachable (cfg : Config α) (hT : Truncating cfg.provider)
    (hWF : WF cfg) {s : State α} (h : Reachable cfg s) : FetchInv cfg s := by
  induction h with
  | refl => exact fetchInv_init cfg
  | tail h1 h2 ih => exact fetchInv_step cfg hT hWF ih h2

/-! ### The exact list-backed provider -/

theorem listProvider_truncating (w : Nat) (data : List (List α)) :
    Truncating (listProvider w data) := by
  intro i s e
  show (((data.getD i []).drop s).take (e - s)).length ≤ (data.getD i []).length - s
  rw [List.length_take, List.length_drop]
  exact Nat.min_le_right _ _

theorem listProvider_progressing (w : Nat) (data : List (List α)) :
    Progressing (listProvider w data) := by
  intro i s e hs hse
  show 1 ≤ (((data.getD i []).drop s).take (e - s)).length
  rw [List.length_take, List.length_drop]
  have hs2 : s < (data.getD i []).length := hs
  omega

theorem pathSizesOf_listProvider (w : Nat) (data : List (List α)) :
    pathSizesOf (listProvider w data) = data.map (fun l => (w, l.length)) := by
  apply List.ext_getElem
  · simp [pathSizesOf, listProvider]
  · intro n h1 h2
    have hn : n < data.length := by
      simpa using h2
    simp only [pathSizesOf, listProvider, List.getElem_map, List.getElem_range]
    rw [List.getD_eq_getElem data [] hn]

theorem heights_listP (cfg : Config α) (w : Nat) (data : List (List α))
    (hp : cfg.provider = listProvider w data) :
    heights cfg = data.map List.length := by
  rw [heights, hp, pathSizesOf_listProvider, List.map_map]
  rfl

theorem culmBefore_listP (cfg : Config α) (w : Nat) (data : List (List α))
    (hp : cfg.provider = listProvider w data) (i : Nat) :
    culmBefore cfg i = ((data.take i).flatten).length := by
  rw [culmBefore, heights_listP cfg w data hp, ← List.map_take, ← List.length_flatten]

theorem height_listP (cfg : Config α) (hWF : WF cfg) (w : Nat) (data : List (List α))
    (hp : cfg.provider = listProvider w data) :
    cfg.height = data.flatten.length := by
  rw [hWF.2, heights_listP cfg w data hp, ← List.length_flatten]

theorem flatten_drop_culmBefore (cfg : Config α) (w : Nat) (data : List (List α))
    (hp : cfg.provider = listProvider w data) (i : Nat) :
    data.flatten.drop (culmBefore cfg i) = (data.drop i).flatten := by
  conv_lhs => rw [← List.take_append_drop i data]
  rw [List.flatten_append, culmBefore_listP cfg w data hp i, List.drop_left]

/-- The chunk property of a fetch over the exact provider: the buffer
returned by `_fetch_next_buffer` is precisely the next run of rows of the
concatenated dataset, starting at the old `fetch_idx` and ending at the new
one. -/
theorem fetch_chunk (cfg : Config α) (hWF : WF cfg) (w : Nat) (data : List (List α))
    (hp : cfg.provider = listProvider w data) {s : State α}
    (hinv : FetchInv cfg s) (hlt : s.pathIdx < cfg.provider.numPaths) :
    data.flatten.drop s.fetchIdx
      = (fetchNextBuffer cfg s).1 ++ data.flatten.drop (fetchNextBuffer cfg s).2.fetchIdx := by
  obtain ⟨hb, hf, -, -, -, -⟩ := fetch_spec cfg hWF s hlt hinv.lower
  have hN : cfg.provider.numPaths = data.length := by rw [hp]; rfl
  have hplt : s.pathIdx < data.length := by omega
  -- the current path and the local offset
  have hhp : (heights cfg).getD s.pathIdx 0 = data[s.pathIdx].length := by
    rw [heights_getD cfg hlt, hp]
    show (data.getD s.pathIdx []).length = _
    rw [List.getD_eq_getElem data [] hplt]
  have hsucc := culmBefore_succ cfg hlt
  rw [hhp] at hsucc
  have hst_le : s.fetchIdx - culmBefore cfg s.pathIdx ≤ data[s.pathIdx].length := by
    have := hinv.upper hlt
    omega
  -- rewrite the slice over the exact provider
  have hb2 : (fetchNextBuffer cfg s).1
      = (data[s.pathIdx].drop (s.fetchIdx - culmBefore cfg s.pathIdx)).take cfg.bufferSize := by
    rw [hb, hp]
    show ((data.getD s.pathIdx []).drop _).take _ = _
    rw [List.getD_eq_getElem data [] hplt, Nat.add_sub_cancel_left]
  -- peel the prior paths off the concatenation
  have hdropc : data.flatten.drop s.fetchIdx
      = data[s.pathIdx].drop (s.fetchIdx - culmBefore cfg s.pathIdx)
          ++ (data.drop (s.pathIdx + 1)).flatten := by
    have hsplit : s.fetchIdx
        = culmBefore cfg s.pathIdx + (s.fetchIdx - culmBefore cfg s.pathIdx) := by
      have := hinv.lower
      omega
    rw [hsplit, ← List.drop_drop, flatten_drop_culmBefore cfg w data hp,
      List.drop_eq_getElem_cons hplt, List.flatten_cons,
      List.drop_append_of_le_length hst_le, Nat.add_sub_cancel_left]
  -- the buffer is an initial segment of the current path remainder
  set X := data[s.pathIdx].drop (s.fetchIdx - culmBefore cfg s.pathIdx) with hX
  have hbtake : (fetchNextBuffer cfg s).1 = X.take (fetchNextBuffer cfg s).1.length := by
    rw [hb2, List.length_take, ← List.take_take, List.take_length]
  have hlenle : (fetchNextBuffer cfg s).1.length ≤ X.length := by
    rw [hb2, List.length_take]
    exact Nat.min_le_right _ _
  rw [hf, ← List.drop_drop, hdropc, List.drop_append_of_le_length hlenle]
  conv_lhs => rw [← List.take_append_drop (fetchNextBuffer cfg s).1.length X]
  rw [← hbtake, List.append_assoc]

/-- Over the exact provider, the worker fetch sequence partitions the
concatenation of all path rows, in order: flattening the fetched buffers
recovers every row exactly once. -/
theorem fetchAll_flatten (cfg : Config α) (hWF : WF cfg) (w : Nat)
    (data : List (List α)) (hp : cfg.provider = listProvider w data)
    (hbs : 1 ≤ cfg.bufferSize) (hprog : Progressing cfg.provider) :
    ∀ fuel (s : State α), FetchInv cfg s → mu cfg s < fuel →
      (fetchAll cfg fuel s).flatten = data.flatten.drop s.fetchIdx := by
  have hT : Truncating cfg.provider := by
    rw [hp]; exact listProvider_truncating w data
  intro fuel
  induction fuel with
  | zero => intro s _ hmu; omega
  | succ n ih =>
    intro s hinv hmu
    by_cases hN : cfg.provider.numPaths ≤ s.pathIdx
    · show (if cfg.provider.numPaths ≤ s.pathIdx then _ else _ : List (List α)).flatten = _
      rw [if_pos hN]
      have hfe : cfg.height ≤ s.fetchIdx := by
        have := hinv.lower
        have hc := culmBefore_of_numPaths_le cfg hWF hN
        omega
      have hlen : data.flatten.length ≤ s.fetchIdx := by
        rw [← height_listP cfg hWF w data hp]
        exact hfe
      rw [List.flatten_nil, List.drop_eq_nil_of_le hlen]
    · show (if cfg.provider.numPaths ≤ s.pathIdx then _ else _ : List (List α)).flatten = _
      rw [if_neg hN]
      have hlt : s.pathIdx < cfg.provider.numPaths := by omega
      have hchunk := fetch_chunk cfg hWF w data hp hinv hlt
      have hinv2 := fetch_inv cfg hT hWF hinv hlt
      have hmu2 : mu cfg (fetchNextBuffer cfg s).2 < n := by
        have := fetch_mu_lt cfg hT hprog hWF hinv hlt hbs
        omega
      rw [List.flatten_cons, ih (fetchNextBuffer cfg s).2 hinv2 hmu2, hchunk]

/-! ### Case equations for one worker iteration -/

theorem workerStep_eq_done (cfg : Config α) {s : State α} (hd : s.workerDone = true) :
    workerStep cfg s = s := by
  simp [workerStep, hd]

theorem workerStep_eq_setDone (cfg : Config α) {s : State α} (hd : s.workerDone = false)
    (hN : cfg.provider.numPaths ≤ s.pathIdx) :
    workerStep cfg s = { s with workerDone := true } := by
  simp [workerStep, hd, hN]

theorem workerStep_eq_fetch (cfg : Config α) {s : State α} (hd : s.workerDone = false)
    (hN : s.pathIdx < cfg.provider.numPaths) (hcap : s.buffers.length < cfg.numBuffers) :
    workerStep cfg s
      = { (fetchNextBuffer cfg s).2 with
          buffers := s.buffers ++ [(fetchNextBuffer cfg s).1] } := by
  have hN2 : ¬ (cfg.provider.numPaths ≤ s.pathIdx) := by omega
  simp [workerStep, hd, hN2, hcap]
  rfl

theorem workerStep_eq_full (cfg : Config α) {s : State α} (hd : s.workerDone = false)
    (hN : s.pathIdx < cfg.provider.numPaths) (hcap : ¬ (s.buffers.length < cfg.numBuffers)) :
    workerStep cfg s = s := by
  have hN2 : ¬ (cfg.provider.numPaths ≤ s.pathIdx) := by omega
  simp [workerStep, hd, hN2, hcap]

/-! ### Preservation of the simulation invariant -/

theorem simInv_start (cfg : Config α) (data : List (List α)) (hWF : WF cfg) :
    SimInv cfg data (initState (α := α)) 0 := by
  refine ⟨0, rfl, Nat.le_refl 0, by simp [initState], safeInv_init cfg, fetchInv_init cfg, ?_⟩
  intro hN
  have h0 : (initState (α := α)).pathIdx = 0 := rfl
  rw [h0] at hN
  have hh : heights cfg = [] := by
    apply List.eq_nil_of_length_eq_zero
    rw [length_heights]
    omega
  rw [hWF.2, hh]
  rfl

theorem simInv_fetch (cfg : Config α) (data : List (List α)) (hWF : WF cfg)
    (w : Nat) (hp : cfg.provider = listProvider w data) {s : State α} {k : Nat}
    (h : SimInv cfg data s k) (hd : s.workerDone = false)
    (hlt : s.pathIdx < cfg.provider.numPaths)
    (hcap : s.buffers.length < cfg.numBuffers) :
    SimInv cfg data (workerStep cfg s) k := by
  have hT : Truncating cfg.provider := by
    rw [hp]; exact listProvider_truncating w data
  obtain ⟨d, hk, hdle, hwin, hsafe, hfinv, hdf⟩ := h
  have hweq := workerStep_eq_fetch cfg hd hlt hcap
  obtain ⟨hb, hf, hpi, -, -, -⟩ := fetch_spec cfg hWF s hlt hfinv.lower
  have hchunk := fetch_chunk cfg hWF w data hp hfinv hlt
  have hle := fetch_len_le cfg hT hWF s hlt hfinv.lower (hfinv.upper hlt)
  have hsafe2 : SafeInv cfg (workerStep cfg s) := safeInv_worker cfg hsafe
  have hfinv2 : FetchInv cfg (workerStep cfg s) := fetchInv_workerStep cfg hT hWF hfinv
  refine ⟨d, ?_, ?_, ?_, hsafe2, hfinv2, ?_⟩
  · rw [hweq]
    show k = d + s.bufferIdx
    exact hk
  · rw [hweq]
    show d ≤ s.fetchIdx + (fetchNextBuffer cfg s).1.length
    omega
  · rw [hweq]
    show (s.buffers ++ [(fetchNextBuffer cfg s).1]).flatten
        = (data.flatten.drop d).take (s.fetchIdx + (fetchNextBuffer cfg s).1.length - d)
    have htake : (data.flatten.drop s.fetchIdx).take (fetchNextBuffer cfg s).1.length
        = (fetchNextBuffer cfg s).1 := by
      rw [hchunk, List.take_left]
    have harith : s.fetchIdx + (fetchNextBuffer cfg s).1.length - d
        = (s.fetchIdx - d) + (fetchNextBuffer cfg s).1.length := by omega
    have hsingle : [(fetchNextBuffer cfg s).1].flatten = (fetchNextBuffer cfg s).1 := by
      simp
    rw [List.flatten_append, hsingle, hwin, harith, List.take_add]
    congr 1
    rw [List.drop_drop]
    have hdge : d + (s.fetchIdx - d) = s.fetchIdx := by omega
    rw [hdge, htake]
  · rw [hweq]
    intro hge
    show s.fetchIdx + (fetchNextBuffer cfg s).1.length = cfg.height
    have hge2 : cfg.provider.numPaths ≤ (fetchNextBuffer cfg s).2.pathIdx := hge
    rw [hpi] at hge2
    by_cases hadv : culmBefore cfg (s.pathIdx + 1)
        ≤ s.fetchIdx + (fetchNextBuffer cfg s).1.length
    · rw [if_pos hadv] at hge2
      have hcN : culmBefore cfg (s.pathIdx + 1) = cfg.height :=
        culmBefore_of_numPaths_le cfg hWF hge2
      omega
    · rw [if_neg hadv] at hge2
      omega

theorem simInv_setDone (cfg : Config α) (data : List (List α)) {s : State α} {k : Nat}
    (h : SimInv cfg data s k) (hd : s.workerDone = false)
    (hN : cfg.provider.numPaths ≤ s.pathIdx) :
    SimInv cfg data (workerStep cfg s) k := by
  obtain ⟨d, hk, hdle, hwin, hsafe, hfinv, hdf⟩ := h
  have hweq := workerStep_eq_setDone cfg hd hN
  have hsafe2 : SafeInv cfg (workerStep cfg s) := safeInv_worker cfg hsafe
  rw [hweq]
  exact ⟨d, hk, hdle, hwin, hweq ▸ hsafe2,
    ⟨hfinv.path_le, hfinv.lower, hfinv.upper, hfinv.total⟩, fun _ => hdf hN⟩

theorem simInv_pop (cfg : Config α) (data : List (List α)) {s : State α} {k : Nat}
    (h : SimInv cfg data s k) (hne : s.buffers ≠ [])
    (hex : (headBuffer s).length ≤ s.bufferIdx) :
    SimInv cfg data (popHead s) k := by
  obtain ⟨d, hk, hdle, hwin, hsafe, hfinv, hdf⟩ := h
  have hidx : s.bufferIdx = (headBuffer s).length :=
    Nat.le_antisymm hsafe.idx_le hex
  obtain ⟨b0, rest, hbs⟩ : ∃ b0 rest, s.buffers = b0 :: rest := by
    cases hbb : s.buffers with
    | nil => exact absurd hbb hne
    | cons b0 rest => exact ⟨b0, rest, rfl⟩
  have hhead : headBuffer s = b0 := by rw [headBuffer, hbs]; rfl
  have hflat : s.buffers.flatten = b0 ++ rest.flatten := by rw [hbs, List.flatten_cons]
  have hlen0 : b0.length ≤ s.buffers.flatten.length := by
    rw [hflat, List.length_append]
    omega
  have hwlen : s.buffers.flatten.length = min (s.fetchIdx - d) (data.flatten.length - d) := by
    rw [hwin, List.length_take, List.length_drop]
  refine ⟨d + b0.length, ?_, ?_, ?_, safeInv_pop cfg hsafe, ⟨hfinv.path_le, hfinv.lower,
    hfinv.upper, hfinv.total⟩, hdf⟩
  · show k = d + b0.length + 0
    rw [hk, hidx, hhead]
    omega
  · show d + b0.length ≤ s.fetchIdx
    omega
  · show (popHead s).buffers.flatten
        = (data.flatten.drop (d + b0.length)).take (s.fetchIdx - (d + b0.length))
    have htail : (popHead s).buffers = rest := by
      show s.buffers.tail = rest
      rw [hbs]
      rfl
    have hrest : rest.flatten = s.buffers.flatten.drop b0.length := by
      rw [hflat, List.drop_left]
    rw [htail, hrest, hwin, List.drop_take, List.drop_drop]
    congr 1
    omega

theorem simInv_read (cfg : Config α) (data : List (List α)) {s : State α} {k : Nat}
    (h : SimInv cfg data s k) (hlt : s.bufferIdx < (headBuffer s).length) :
    ∃ v, readHead s = some (v, { s with bufferIdx := s.bufferIdx + 1 }) ∧
      data.flatten[k]? = some v ∧
      SimInv cfg data { s with bufferIdx := s.bufferIdx + 1 } (k + 1) := by
  obtain ⟨d, hk, hdle, hwin, hsafe, hfinv, hdf⟩ := h
  have hne : s.buffers ≠ [] := by
    intro hbb
    have : headBuffer s = [] := by rw [headBuffer, hbb]; rfl
    rw [this] at hlt
    simp at hlt
  obtain ⟨b0, rest, hbs⟩ : ∃ b0 rest, s.buffers = b0 :: rest := by
    cases hbb : s.buffers with
    | nil => exact absurd hbb hne
    | cons b0 rest => exact ⟨b0, rest, rfl⟩
  have hhead : headBuffer s = b0 := by rw [headBuffer, hbs]; rfl
  have hflat : s.buffers.flatten = b0 ++ rest.flatten := by rw [hbs, List.flatten_cons]
  have hwlen : s.buffers.flatten.length = min (s.fetchIdx - d) (data.flatten.length - d) := by
    rw [hwin, List.length_take, List.length_drop]
  have hlt2 : s.bufferIdx < s.buffers.flatten.length := by
    rw [hflat, List.length_append]
    rw [hhead] at hlt
    omega
  have hvflat : s.buffers.flatten[s.bufferIdx]? = (headBuffer s)[s.bufferIdx]? := by
    rw [hflat, List.getElem?_append, hhead]
    rw [hhead] at hlt
    rw [if_pos hlt]
  have hvdata : data.flatten[k]? = s.buffers.flatten[s.bufferIdx]? := by
    rw [hk, hwin, List.getElem?_take, if_pos (by omega : s.bufferIdx < s.fetchIdx - d),
      List.getElem?_drop]
  have hsome : ∃ v, (headBuffer s)[s.bufferIdx]? = some v := by
    have : s.bufferIdx < (headBuffer s).length := hlt
    exact ⟨(headBuffer s)[s.bufferIdx], List.getElem?_eq_getElem this⟩
  obtain ⟨v, hv⟩ := hsome
  refine ⟨v, ?_, ?_, ?_⟩
  · rw [readHead, hv]
  · rw [hvdata, hvflat, hv]
  · refine ⟨d, by show k + 1 = d + (s.bufferIdx + 1); omega, hdle, hwin,
      ⟨hsafe.path_le, hsafe.buf_le, ?_, ?_, hsafe.done_path⟩,
      ⟨hfinv.path_le, hfinv.lower, hfinv.upper, hfinv.total⟩, hdf⟩
    · intro hbb
      exact absurd hbb hne
    · show s.bufferIdx + 1 ≤ (headBuffer { s with bufferIdx := s.bufferIdx + 1 }).length
      have : headBuffer { s with bufferIdx := s.bufferIdx + 1 } = headBuffer s := rfl
      rw [this]
      omega

/-! ### Progress of the consumer wait loop -/

theorem getItemLoop_succ (cfg : Config α) (n : Nat) (s : State α) :
    getItemLoop cfg (n + 1) s
      = if s.buffers.length < 1 ∨ (headBuffer s).length ≤ s.bufferIdx
        then getItemLoop cfg n (sleepStep cfg s) else some s := rfl

theorem loopMeasure_pop (cfg : Config α) {s : State α} (hne : s.buffers ≠ []) :
    loopMeasure cfg (popHead s) < loopMeasure cfg s := by
  have hmu : mu cfg (popHead s) = mu cfg s := rfl
  have hflag : (popHead s).workerDone = s.workerDone := rfl
  have hlen : (popHead s).buffers.length = s.buffers.length - 1 := by
    show s.buffers.tail.length = _
    rw [List.length_tail]
  have hpos : 0 < s.buffers.length := List.length_pos.mpr hne
  rw [loopMeasure, loopMeasure, hmu, hflag, hlen]
  omega

/-- When every row has been fetched (`fetch_idx = height`) but the consumer
still owes rows and the head is exhausted, the window necessarily holds a
second buffer, so the eviction branch of the wait loop fires. -/
theorem sim_must_pop (cfg : Config α) (data : List (List α)) (hWF : WF cfg)
    (w : Nat) (hp : cfg.provider = listProvider w data) {s : State α} {k : Nat}
    (h : SimInv cfg data s k) (hk : k < cfg.height) (hfe : s.fetchIdx = cfg.height)
    (hcond : s.buffers.length < 1 ∨ (headBuffer s).length ≤ s.bufferIdx) :
    1 < s.buffers.length ∧ (headBuffer s).length ≤ s.bufferIdx := by
  obtain ⟨d, hk2, hdle, hwin, hsafe, hfinv, hdf⟩ := h
  have hL : data.flatten.length = cfg.height := (height_listP cfg hWF w data hp).symm
  have hwlen : s.buffers.flatten.length = cfg.height - d := by
    rw [hwin, List.length_take, List.length_drop, hL, hfe, Nat.min_self]
  cases hbs : s.buffers with
  | nil =>
    exfalso
    have hfl : s.buffers.flatten = [] := by rw [hbs]; rfl
    have hbz : s.bufferIdx = 0 := hsafe.idx_empty hbs
    rw [hfl] at hwlen
    simp only [List.length_nil] at hwlen
    omega
  | cons b0 rest =>
    have hhead : headBuffer s = b0 := by rw [headBuffer, hbs]; rfl
    have hfl : s.buffers.flatten = b0 ++ rest.flatten := by rw [hbs, List.flatten_cons]
    have hex : (headBuffer s).length ≤ s.bufferIdx := by
      rcases hcond with hlt | hex
      · exfalso
        rw [hbs] at hlt
        simp at hlt
      · exact hex
    have hidxle : s.bufferIdx ≤ (headBuffer s).length := hsafe.idx_le
    have hflen : s.buffers.flatten.length = b0.length + rest.flatten.length := by
      rw [hfl, List.length_append]
    have hrest : 0 < rest.flatten.length := by
      rw [hhead] at hex hidxle
      omega
    have hrestne : rest ≠ [] := by
      intro hre
      rw [hre] at hrest
      simp at hrest
    constructor
    · have := List.length_pos.mpr hrestne
      simp only [List.length_cons]
      omega
    · exact hex

/-- One pass through the wait-loop body preserves the simulation invariant
and strictly decreases the loop variant, provided rows are still owed. -/
theorem sim_sleepStep (cfg : Config α) (data : List (List α)) (hWF : WF cfg)
    (w : Nat) (hp : cfg.provider = listProvider w data) {s : State α} {k : Nat}
    (h : SimInv cfg data s k) (hk : k < cfg.height)
    (hnb : 2 ≤ cfg.numBuffers) (hbs : 1 ≤ cfg.bufferSize)
    (hcond : s.buffers.length < 1 ∨ (headBuffer s).length ≤ s.bufferIdx) :
    SimInv cfg data (sleepStep cfg s) k ∧
      loopMeasure cfg (sleepStep cfg s) < loopMeasure cfg s := by
  have hT : Truncating cfg.provider := by
    rw [hp]; exact listProvider_truncating w data
  have hprog : Progressing cfg.provider := by
    rw [hp]; exact listProvider_progressing w data
  have hsleep : sleepStep cfg s
      = (if 1 < (workerStep cfg s).buffers.length ∧
          (headBuffer (workerStep cfg s)).length ≤ (workerStep cfg s).bufferIdx
        then popHead (workerStep cfg s) else workerStep cfg s) := rfl
  have hfinv0 : FetchInv cfg s := by
    obtain ⟨-, -, -, -, -, hf0, -⟩ := id h
    exact hf0
  by_cases hd : s.workerDone = true
  · -- worker already returned: every row is fetched and the head is evicted
    have hweq := workerStep_eq_done cfg hd
    have hfe : s.fetchIdx = cfg.height := by
      obtain ⟨-, -, -, -, hsafe0, -, hdf0⟩ := id h
      exact hdf0 (hsafe0.done_path hd)
    have hpop := sim_must_pop cfg data hWF w hp h hk hfe hcond
    have hc : 1 < (workerStep cfg s).buffers.length ∧
        (headBuffer (workerStep cfg s)).length ≤ (workerStep cfg s).bufferIdx := by
      rw [hweq]
      exact hpop
    have hne : s.buffers ≠ [] := by
      intro he
      rw [he] at hpop
      simp at hpop
    rw [hsleep, if_pos hc, hweq]
    exact ⟨simInv_pop cfg data h hne hpop.2, loopMeasure_pop cfg hne⟩
  · have hd2 : s.workerDone = false := by
      revert hd
      cases s.workerDone <;> simp
    by_cases hN : cfg.provider.numPaths ≤ s.pathIdx
    · -- worker returns on this pass: the flag flips, nothing else moves
      have hweq := workerStep_eq_setDone cfg hd2 hN
      have hsim1 : SimInv cfg data (workerStep cfg s) k := simInv_setDone cfg data h hd2 hN
      have hmu1 : mu cfg (workerStep cfg s) = mu cfg s := by
        rw [hweq]
        rfl
      have hlen1 : (workerStep cfg s).buffers.length = s.buffers.length := by
        rw [hweq]
      have hflag : (workerStep cfg s).workerDone = true := by
        rw [hweq]
      have hLM1 : loopMeasure cfg (workerStep cfg s) < loopMeasure cfg s := by
        rw [loopMeasure, loopMeasure, hmu1, hlen1, hflag, hd2]
        simp
      rw [hsleep]
      by_cases hc : 1 < (workerStep cfg s).buffers.length ∧
          (headBuffer (workerStep cfg s)).length ≤ (workerStep cfg s).bufferIdx
      · rw [if_pos hc]
        have hne : (workerStep cfg s).buffers ≠ [] := by
          intro he
          rw [he] at hc
          simp at hc
        refine ⟨simInv_pop cfg data hsim1 hne hc.2, ?_⟩
        have := loopMeasure_pop cfg hne
        omega
      · rw [if_neg hc]
        exact ⟨hsim1, hLM1⟩
    · have hNlt : s.pathIdx < cfg.provider.numPaths := by omega
      by_cases hcap : s.buffers.length < cfg.numBuffers
      · -- the worker fetches: `mu` drops and dominates the window growth
        have hweq := workerStep_eq_fetch cfg hd2 hNlt hcap
        have hsim1 : SimInv cfg data (workerStep cfg s) k :=
          simInv_fetch cfg data hWF w hp h hd2 hNlt hcap
        have hmuf : mu cfg (workerStep cfg s) = mu cfg (fetchNextBuffer cfg s).2 := by
          rw [hweq]
          rfl
        have hmult : mu cfg (fetchNextBuffer cfg s).2 < mu cfg s :=
          fetch_mu_lt cfg hT hprog hWF hfinv0 hNlt hbs
        have hlenf : (workerStep cfg s).buffers.length = s.buffers.length + 1 := by
          rw [hweq]
          show (s.buffers ++ [(fetchNextBuffer cfg s).1]).length = _
          rw [List.length_append]
          rfl
        have hflagf : (workerStep cfg s).workerDone = false := by
          rw [hweq]
          show (fetchNextBuffer cfg s).2.workerDone = false
          obtain ⟨-, -, hwd, -, -, -⟩ := fetchNextBuffer_frame cfg s
          rw [hwd, hd2]
        have hmul : (2 * cfg.numBuffers + 3) * mu cfg (fetchNextBuffer cfg s).2
            + (2 * cfg.numBuffers + 3) ≤ (2 * cfg.numBuffers + 3) * mu cfg s := by
          have h1 : mu cfg (fetchNextBuffer cfg s).2 + 1 ≤ mu cfg s := hmult
          calc (2 * cfg.numBuffers + 3) * mu cfg (fetchNextBuffer cfg s).2
                + (2 * cfg.numBuffers + 3)
              = (2 * cfg.numBuffers + 3) * (mu cfg (fetchNextBuffer cfg s).2 + 1) := by ring
            _ ≤ (2 * cfg.numBuffers + 3) * mu cfg s := Nat.mul_le_mul_left _ h1
        have hLM1 : loopMeasure cfg (workerStep cfg s) + 1 < loopMeasure cfg s := by
          rw [loopMeasure, loopMeasure, hmuf, hlenf, hflagf, hd2]
          omega
        rw [hsleep]
        by_cases hc : 1 < (workerStep cfg s).buffers.length ∧
            (headBuffer (workerStep cfg s)).length ≤ (workerStep cfg s).bufferIdx
        · rw [if_pos hc]
          have hne : (workerStep cfg s).buffers ≠ [] := by
            intro he
            rw [he] at hc
            simp at hc
          refine ⟨simInv_pop cfg data hsim1 hne hc.2, ?_⟩
          have := loopMeasure_pop cfg hne
          omega
        · rw [if_neg hc]
          exact ⟨hsim1, by omega⟩
      · -- window full: the sleep pass evicts the exhausted head
        have hweq := workerStep_eq_full cfg hd2 hNlt hcap
        have hlen2 : 2 ≤ s.buffers.length := by omega
        have hex : (headBuffer s).length ≤ s.bufferIdx := by
          rcases hcond with hlt | hex
          · omega
          · exact hex
        have hc : 1 < (workerStep cfg s).buffers.length ∧
            (headBuffer (workerStep cfg s)).length ≤ (workerStep cfg s).bufferIdx := by
          rw [hweq]
          exact ⟨by omega, hex⟩
        have hne : s.buffers ≠ [] := by
          intro he
          rw [he] at hlen2
          simp at hlen2
        rw [hsleep, if_pos hc, hweq]
        exact ⟨simInv_pop cfg data h hne hex, loopMeasure_pop cfg hne⟩

/-- The `__getitem__` wait loop terminates with a readable head whenever
rows are still owed, the window is at least two buffers deep
(`num_buffers ≥ 2`) and fetches make progress (`buffer_size ≥ 1`). -/
theorem sim_loop (cfg : Config α) (data : List (List α)) (hWF : WF cfg)
    (w : Nat) (hp : cfg.provider = listProvider w data)
    (hnb : 2 ≤ cfg.numBuffers) (hbs : 1 ≤ cfg.bufferSize) :
    ∀ fuel (s : State α) (k : Nat), SimInv cfg data s k → k < cfg.height →
      loopMeasure cfg s < fuel →
      ∃ s1, getItemLoop cfg fuel s = some s1 ∧ SimInv cfg data s1 k ∧
        s1.bufferIdx < (headBuffer s1).length ∧
        loopMeasure cfg s1 ≤ loopMeasure cfg s := by
  intro fuel
  induction fuel with
  | zero =>
    intro s k h hk hlm
    omega
  | succ n ih =>
    intro s k h hk hlm
    by_cases hcond : s.buffers.length < 1 ∨ (headBuffer s).length ≤ s.bufferIdx
    · obtain ⟨h1, hlt1⟩ := sim_sleepStep cfg data hWF w hp h hk hnb hbs hcond
      obtain ⟨s1, hgl, hsim, hb2, hle⟩ := ih (sleepStep cfg s) k h1 hk (by omega)
      rw [getItemLoop_succ, if_pos hcond]
      exact ⟨s1, hgl, hsim, hb2, by omega⟩
    · rw [getItemLoop_succ, if_neg hcond]
      push_neg at hcond
      exact ⟨s, rfl, h, hcond.2, Nat.le_refl _⟩

/-- One in-range `__getitem__` body call (as issued by iteration) returns
exactly row `k` of the concatenated dataset and moves the invariant to
`k + 1` without increasing the loop variant. -/
theorem sim_getItemRaw (cfg : Config α) (data : List (List α)) (hWF : WF cfg)
    (w : Nat) (hp : cfg.provider = listProvider w data)
    (hnb : 2 ≤ cfg.numBuffers) (hbs : 1 ≤ cfg.bufferSize) {fuel : Nat}
    {s : State α} {k : Nat} (h : SimInv cfg data s k) (hk : k < cfg.height)
    (hfl : loopMeasure cfg s < fuel) :
    ∃ v s1, getItemRaw cfg fuel s = some (v, s1) ∧ data.flatten[k]? = some v ∧
      SimInv cfg data s1 (k + 1) ∧ loopMeasure cfg s1 ≤ loopMeasure cfg s := by
  obtain ⟨s2, hgl, hsim, hlt, hle⟩ :=
    sim_loop cfg data hWF w hp hnb hbs fuel s k h hk hfl
  obtain ⟨v, hread, hval, hsim2⟩ := simInv_read cfg data hsim hlt
  refine ⟨v, { s2 with bufferIdx := s2.bufferIdx + 1 }, ?_, hval, hsim2, ?_⟩
  · rw [getItemRaw, hgl]
    exact hread
  · have : loopMeasure cfg { s2 with bufferIdx := s2.bufferIdx + 1 }
        = loopMeasure cfg s2 := rfl
    omega

/-- Iterating `n` more times from a state owing rows `k, k+1, …` yields the
next `n` rows of the concatenated dataset, in order. -/
theorem sim_iterFrom (cfg : Config α) (data : List (List α)) (hWF : WF cfg)
    (w : Nat) (hp : cfg.provider = listProvider w data)
    (hnb : 2 ≤ cfg.numBuffers) (hbs : 1 ≤ cfg.bufferSize) (fuel : Nat) :
    ∀ (n : Nat) (s : State α) (k : Nat), SimInv cfg data s k →
      k + n = cfg.height → loopMeasure cfg s < fuel →
      iterFrom cfg fuel n s = some ((data.flatten.drop k).take n) := by
  intro n
  induction n with
  | zero =>
    intro s k h hkn hf
    rfl
  | succ m ih =>
    intro s k h hkn hf
    obtain ⟨v, s1, hraw, hval, hsim, hle⟩ :=
      sim_getItemRaw cfg data hWF w hp hnb hbs h (by omega) hf
    have hstep : iterFrom cfg fuel (m + 1) s
        = (iterFrom cfg fuel m s1).map (fun l => v :: l) := by
      simp only [iterFrom, hraw]
    rw [hstep, ih s1 (k + 1) hsim (by omega) (by omega)]
    have hklt : k < data.flatten.length := by
      have := List.getElem?_eq_some.mp hval
      exact this.1
    have hdropk : data.flatten.drop k = v :: data.flatten.drop (k + 1) := by
      rw [List.drop_eq_getElem_cons hklt]
      have hvk : data.flatten[k] = v := by
        have := List.getElem?_eq_some.mp hval
        exact this.2
      rw [hvk]
    rw [hdropk, List.take_succ_cons]
    rfl

/-- Fully iterating a freshly constructed dataset over the exact provider
yields exactly the concatenation of all path rows, in order. -/
theorem iterate_flatten (cfg : Config α) (data : List (List α)) (hWF : WF cfg)
    (w : Nat) (hp : cfg.provider = listProvider w data)
    (hnb : 2 ≤ cfg.numBuffers) (hbs : 1 ≤ cfg.bufferSize) :
    iterateAll cfg (loopMeasure cfg (initState (α := α)) + 1) = some data.flatten := by
  have hlen : datasetLen cfg = cfg.height := rfl
  have hL : data.flatten.length = cfg.height := (height_listP cfg hWF w data hp).symm
  rw [iterateAll, hlen,
    sim_iterFrom cfg data hWF w hp hnb hbs (loopMeasure cfg (initState (α := α)) + 1)
      cfg.height initState 0 (simInv_start cfg data hWF) (by omega) (by omega)]
  rw [List.drop_zero, ← hL, List.take_length]

/-! ### Indexing the concatenation by path -/

theorem flatten_getElem_path (data : List (List α)) (k j : Nat)
    (h1 : ((data.map List.length).take j).sum ≤ k)
    (h2 : k < ((data.map List.length).take (j + 1)).sum) :
    data.flatten[k]? = (data.getD j [])[k - ((data.map List.length).take j).sum]? := by
  have hjlt : j < data.length := by
    by_contra hge
    push_neg at hge
    have hge2 : (data.map List.length).length ≤ j := by
      simpa using hge
    have hje : (data.map List.length).take j = data.map List.length :=
      List.take_of_length_le hge2
    have hje1 : (data.map List.length).take (j + 1) = data.map List.length :=
      List.take_of_length_le (by omega)
    rw [hje] at h1
    rw [hje1] at h2
    omega
  have hjm : j < (data.map List.length).length := by simpa using hjlt
  have hcflat : ((data.map List.length).take j).sum = (data.take j).flatten.length := by
    rw [List.length_flatten, List.map_take]
  have hsucc : ((data.map List.length).take (j + 1)).sum
      = ((data.map List.length).take j).sum + data[j].length := by
    rw [List.sum_take_succ _ j hjm]
    congr 1
    simp
  have hsplit : data.flatten
      = (data.take j).flatten ++ (data[j] :: data.drop (j + 1)).flatten := by
    conv_lhs => rw [← List.take_append_drop j data]
    rw [List.flatten_append, List.drop_eq_getElem_cons hjlt]
  rw [hsplit, List.getElem?_append,
    if_neg (by omega : ¬ k < (data.take j).flatten.length), List.flatten_cons,
    List.getElem?_append, if_pos (by omega : k - (data.take j).flatten.length < data[j].length),
    List.getD_eq_getElem data [] hjlt]
  congr 1
  omega

/-! ### Counting fetches along arbitrary interleavings -/

theorem step_buffers_grow (cfg : Config α) {s s1 : State α} (hs : Step cfg s s1)
    (hg : s.buffers.length < s1.buffers.length) :
    s1 = workerStep cfg s ∧ s.workerDone = false ∧
      s.pathIdx < cfg.provider.numPaths ∧ s.buffers.length < cfg.numBuffers := by
  cases hs with
  | worker =>
    refine ⟨rfl, ?_, ?_, ?_⟩ <;>
      · by_cases hd : s.workerDone = true
        · rw [workerStep_eq_done cfg hd] at hg
          omega
        · have hd2 : s.workerDone = false := by
            revert hd
            cases s.workerDone <;> simp
          by_cases hN : cfg.provider.numPaths ≤ s.pathIdx
          · rw [workerStep_eq_setDone cfg hd2 hN] at hg
            simp at hg
          · by_cases hcap : s.buffers.length < cfg.numBuffers
            · first
                | exact hd2
                | omega
            · rw [workerStep_eq_full cfg hd2 (by omega) hcap] at hg
              omega
  | pop h1 h2 =>
    exfalso
    have : (popHead s).buffers.length = s.buffers.length - 1 := by
      show s.buffers.tail.length = _
      rw [List.length_tail]
    omega
  | read v s1 hr =>
    exfalso
    obtain ⟨-, -, heq⟩ := readHead_some hr
    subst heq
    simp at hg

theorem step_mu_le (cfg : Config α) (hT : Truncating cfg.provider)
    (hP : Progressing cfg.provider) (hWF : WF cfg) (hbs : 1 ≤ cfg.bufferSize)
    {s s1 : State α} (hinv : FetchInv cfg s) (hs : Step cfg s s1) :
    mu cfg s1 ≤ mu cfg s ∧
      (s.buffers.length < s1.buffers.length → mu cfg s1 < mu cfg s) := by
  cases hs with
  | worker =>
    by_cases hd : s.workerDone = true
    · rw [workerStep_eq_done cfg hd]
      exact ⟨Nat.le_refl _, by omega⟩
    · have hd2 : s.workerDone = false := by
        revert hd
        cases s.workerDone <;> simp
      by_cases hN : cfg.provider.numPaths ≤ s.pathIdx
      · rw [workerStep_eq_setDone cfg hd2 hN]
        exact ⟨Nat.le_refl _, fun hg => absurd hg (by simp)⟩
      · by_cases hcap : s.buffers.length < cfg.numBuffers
        · rw [workerStep_eq_fetch cfg hd2 (by omega) hcap]
          have hlt := fetch_mu_lt cfg hT hP hWF hinv (by omega) hbs
          have hmeq : mu cfg { (fetchNextBuffer cfg s).2 with
              buffers := s.buffers ++ [(fetchNextBuffer cfg s).1] }
              = mu cfg (fetchNextBuffer cfg s).2 := rfl
          rw [hmeq]
          exact ⟨by omega, fun _ => hlt⟩
        · rw [workerStep_eq_full cfg hd2 (by omega) hcap]
          exact ⟨Nat.le_refl _, by omega⟩
  | pop h1 h2 =>
    have : mu cfg (popHead s) = mu cfg s := rfl
    have hlen : (popHead s).buffers.length = s.buffers.length - 1 := by
      show s.buffers.tail.length = _
      rw [List.length_tail]
    exact ⟨by omega, by omega⟩
  | read v s1 hr =>
    obtain ⟨-, -, heq⟩ := readHead_some hr
    subst heq
    exact ⟨Nat.le_refl _, by simp⟩

theorem trace_fetchCount_le (cfg : Config α) (hT : Truncating cfg.provider)
    (hP : Progressing cfg.provider) (hWF : WF cfg) (hbs : 1 ≤ cfg.bufferSize) :
    ∀ (l : List (State α)) (s0 : State α), IsTrace cfg (s0 :: l) →
      FetchInv cfg s0 → fetchCount (s0 :: l) ≤ mu cfg s0 := by
  intro l
  induction l with
  | nil =>
    intro s0 _ _
    exact Nat.zero_le _
  | cons s1 rest ih =>
    intro s0 htr hinv
    have hstep : Step cfg s0 s1 := htr.1
    have htr2 : IsTrace cfg (s1 :: rest) := htr.2
    have hinv1 : FetchInv cfg s1 := fetchInv_step cfg hT hWF hinv hstep
    have hcnt : fetchCount (s0 :: s1 :: rest)
        = (if s0.buffers.length < s1.buffers.length then 1 else 0)
          + fetchCount (s1 :: rest) := rfl
    have hmu := step_mu_le cfg hT hP hWF hbs hinv hstep
    have hihr := ih s1 htr2 hinv1
    by_cases hg : s0.buffers.length < s1.buffers.length
    · rw [hcnt, if_pos hg]
      have := hmu.2 hg
      omega
    · rw [hcnt, if_neg hg]
      have := hmu.1
      omega

/-- When the head buffer is readable the wait loop exits at once: the
`__getitem__` body reduces to the head read. -/
theorem getItemRaw_ready (cfg : Config α) {fuel : Nat} (hf : 1 ≤ fuel) {s : State α}
    (h1 : 1 ≤ s.buffers.length) (h2 : s.bufferIdx < (headBuffer s).length) :
    getItemRaw cfg fuel s = readHead s := by
  obtain ⟨n, rfl⟩ : ∃ n, fuel = n + 1 := ⟨fuel - 1, by omega⟩
  have hcond : ¬ (s.buffers.length < 1 ∨ (headBuffer s).length ≤ s.bufferIdx) := by
    push_neg
    exact ⟨h1, h2⟩
  rw [getItemRaw, getItemLoop_succ, if_neg hcond]

theorem flatten_filter_nonempty (data : List (List α)) :
    data.flatten = (data.filter (fun l => !l.isEmpty)).flatten := by
  induction data with
  | nil => rfl
  | cons d ds ih =>
    cases d with
    | nil =>
      rw [List.flatten_cons, List.filter_cons]
      simp only [List.isEmpty_nil, Bool.not_true, List.nil_append]
      rw [if_neg (by simp)]
      exact ih
    | cons a t =>
      rw [List.flatten_cons, List.filter_cons]
      rw [if_pos (by simp)]
      rw [List.flatten_cons, ih]

/-- Fetching while positioned on a zero-height path returns the empty
buffer, leaves `fetch_idx` unchanged, and advances `path_idx`. -/
theorem fetch_zero_path (cfg : Config α) (hWF : WF cfg) (w : Nat)
    (data : List (List α)) (hpv : cfg.provider = listProvider w data)
    {s : State α} (hfinv : FetchInv cfg s)
    (hlt : s.pathIdx < cfg.provider.numPaths)
    (hzero : (heights cfg).getD s.pathIdx 0 = 0) :
    (fetchNextBuffer cfg s).1 = [] ∧
      (fetchNextBuffer cfg s).2.fetchIdx = s.fetchIdx ∧
      (fetchNextBuffer cfg s).2.pathIdx = s.pathIdx + 1 := by
  obtain ⟨hb, hf, hpi, -, -, -⟩ := fetch_spec cfg hWF s hlt hfinv.lower
  have hsz : (cfg.provider.size s.pathIdx).2 = 0 := by
    rw [← heights_getD cfg hlt]
    exact hzero
  have hpath0 : data.getD s.pathIdx [] = [] := by
    apply List.eq_nil_of_length_eq_zero
    have := hsz
    rw [hpv] at this
    exact this
  have hbc : (fetchNextBuffer cfg s).1 = [] := by
    rw [hb, hpv]
    show ((data.getD s.pathIdx []).drop _).take _ = []
    rw [hpath0]
    simp
  have hfc : (fetchNextBuffer cfg s).2.fetchIdx = s.fetchIdx := by
    rw [hf, hbc]
    rfl
  refine ⟨hbc, hfc, ?_⟩
  rw [hpi]
  have hcb : culmBefore cfg (s.pathIdx + 1) = culmBefore cfg s.pathIdx := by
    rw [culmBefore_succ cfg hlt, hzero]
    rfl
  have hcond : culmBefore cfg (s.pathIdx + 1)
      ≤ s.fetchIdx + (fetchNextBuffer cfg s).1.length := by
    rw [hcb, hbc]
    have := hfinv.lower
    simp
    omega
  rw [if_pos hcond]

theorem fetchNextBuffer_pathIdx_iff (cfg : Config α) (s : State α) :
    (fetchNextBuffer cfg s).2.pathIdx = s.pathIdx + 1 ↔
      cfg.culmSizes.getD s.pathIdx 0
        ≤ s.fetchIdx + (fetchNextBuffer cfg s).1.length := by
  show (if cfg.culmSizes.getD s.pathIdx 0
      ≤ s.fetchIdx + (fetchNextBuffer cfg s).1.length
    then s.pathIdx + 1 else s.pathIdx) = s.pathIdx + 1 ↔ _
  split
  · rename_i hcnd
    exact iff_of_true rfl hcnd
  · rename_i hcnd
    exact iff_of_false (by omega) hcnd

/-! ### The claims -/

/-- C1: for every provider with `N` paths of heights `h_0 … h_{N-1}` whose
`slice(path, start, end)` returns exactly the rows `[start, min(end, height))`
of that path (the exact list-backed provider `listProvider`), fully
iterating a freshly constructed `StreamingDataset` (as built by `__init__`
with no projection; the default window shape `num_buffers = 3 ≥ 2`,
`buffer_size = 128 ≥ 1` is required for the wait loop to make progress)
yields exactly `sum(h_i)` rows, and the `k`-th yielded row is the row of
path `j` at local index `k - (h_0 + … + h_{j-1})`, where `j` is the unique
path whose cumulative count exceeds `k`: strict path order, then strict
in-path row order, with no row dropped or duplicated across path
boundaries. -/
theorem claim_C1 (w nb bs : Nat) (data : List (List α)) (cfg : Config α)
    (hok : mkStreaming (listProvider w data) none nb bs = Except.ok cfg)
    (hnb : 2 ≤ nb) (hbs : 1 ≤ bs) :
    ∃ fuel out, iterateAll cfg fuel = some out ∧
      out.length = (data.map List.length).sum ∧
      ∀ k j, ((data.map List.length).take j).sum ≤ k →
        k < ((data.map List.length).take (j + 1)).sum →
          out[k]? = (data.getD j [])[k - ((data.map List.length).take j).sum]? := by
  obtain ⟨hpv, hWF, hnb2, hbs2, -, -⟩ := mkStreaming_ok hok
  refine ⟨loopMeasure cfg (initState (α := α)) + 1, data.flatten, ?_, ?_, ?_⟩
  · exact iterate_flatten cfg data hWF w hpv (by omega) (by omega)
  · rw [List.length_flatten]
  · intro k j h1 h2
    exact flatten_getElem_path data k j h1 h2

/-- C1 witness at `exData` (paths of heights 2, 0, 3). -/
theorem claim_C1_witness :
    ∃ fuel out, iterateAll exCfg fuel = some out ∧ out.length = 5 ∧
      out[3]? = some 3 := by
  obtain ⟨fuel, out, hall, hlen, hidx⟩ :=
    claim_C1 7 2 2 exData exCfg rfl (by decide) (by decide)
  refine ⟨fuel, out, hall, ?_, ?_⟩
  · rw [hlen]
    rfl
  · have h3 := hidx 3 2 (by decide) (by decide)
    rw [h3]
    rfl

/-- C2: each worker fetch advances `fetch_idx` by the length of the buffer
the provider returned, and advances `path_idx` exactly when the new
`fetch_idx` has reached the cumulative row count through the current path
(`culm_sizes[path_idx]`); over a provider that truncates slices exactly at
end-of-path, the fetched buffers partition the concatenation of all path
rows in order (no drop, no duplicate); and for a single path of height 10
with `buffer_size = 3` the fetch sequence has buffer sizes `[3, 3, 3, 1]`. -/
theorem claim_C2 (w nb bs : Nat) (data : List (List α)) (cfg : Config α)
    (hok : mkStreaming (listProvider w data) none nb bs = Except.ok cfg)
    (hbs : 1 ≤ bs) :
    (∀ s : State α, (fetchNextBuffer cfg s).2.fetchIdx
        = s.fetchIdx + (fetchNextBuffer cfg s).1.length) ∧
      (∀ s : State α, ((fetchNextBuffer cfg s).2.pathIdx = s.pathIdx + 1 ↔
        cfg.culmSizes.getD s.pathIdx 0
          ≤ s.fetchIdx + (fetchNextBuffer cfg s).1.length)) ∧
      (∃ fuel, (fetchAll cfg fuel initState).flatten = data.flatten) ∧
      (fetchAll scenCfg 5 initState).map List.length = [3, 3, 3, 1] := by
  obtain ⟨hpv, hWF, hnb2, hbs2, -, -⟩ := mkStreaming_ok hok
  refine ⟨fun s => rfl, fun s => fetchNextBuffer_pathIdx_iff cfg s, ?_, by decide⟩
  have hprog : Progressing cfg.provider := by
    rw [hpv]
    exact listProvider_progressing w data
  refine ⟨mu cfg (initState (α := α)) + 1, ?_⟩
  rw [fetchAll_flatten cfg hWF w data hpv (by omega) hprog _ initState
    (fetchInv_init cfg) (by omega)]
  rfl

/-- C2 witness at `exData` and the concrete scenario. -/
theorem claim_C2_witness :
    (∃ fuel, (fetchAll exCfg fuel initState).flatten = exData.flatten) ∧
      (fetchAll scenCfg 5 initState).map List.length = [3, 3, 3, 1] := by
  obtain ⟨-, -, h3, h4⟩ := claim_C2 7 2 2 exData exCfg rfl (by decide)
  exact ⟨h3, h4⟩

/-- C3 counterexample: the claim says every negative index raises the
range error, but `__getitem__` only checks `idx >= height`; at index `-1`
over a height-5 dataset the check passes and the call falls through to the
body (here exhausting its fuel in the wait loop rather than raising). -/
theorem claim_C3_counterexample :
    getItem exCfg 1 (-1) initState = Except.ok none := rfl

/-- C3 amended: `__getitem__` validates only the upper bound: it raises the
range error exactly for `idx ≥ height` — synchronously, before any row is
read or any cursor state is changed (the error branch returns without
touching the body) — and every `idx < height`, including `height - 1` and
every negative index, passes the check and runs the body unchanged. -/
theorem claim_C3_amended (cfg : Config α) (fuel : Nat) (s : State α) (idx : Int) :
    ((∃ e, getItem cfg fuel idx s = Except.error e) ↔ (cfg.height : Int) ≤ idx) ∧
      (idx < (cfg.height : Int) →
        getItem cfg fuel idx s = Except.ok (getItemRaw cfg fuel s)) := by
  unfold getItem
  by_cases hc : (cfg.height : Int) ≤ idx
  · rw [if_pos hc]
    exact ⟨⟨fun _ => hc, fun _ => ⟨_, rfl⟩⟩, fun hlt => absurd hc (by omega)⟩
  · rw [if_neg hc]
    refine ⟨⟨?_, fun h => absurd h hc⟩, fun _ => rfl⟩
    rintro ⟨e, he⟩
    exact absurd he (by simp)

/-- C3 amended witness: at height 5, index 5 raises and index 4 runs the
body. -/
theorem claim_C3_amended_witness :
    (∃ e, getItem exCfg 1 5 initState = Except.error e) ∧
      getItem exCfg 1 4 initState = Except.ok (getItemRaw exCfg 1 initState) :=
  ⟨(claim_C3_amended exCfg 1 initState 5).1.mpr (by decide),
    (claim_C3_amended exCfg 1 initState 4).2 (by decide)⟩

/-- C4: the record returned by `get_item` does not depend on its index
argument: in any state whose head buffer is non-exhausted, for any two
in-range indices the two calls return the same record — the row at the
cursor `buffer_idx` of the head buffer — and leave the dataset in the same
successor state (`buffer_idx + 1`); only the cursor determines the result,
so non-sequential calls silently read the cursor row rather than failing. -/
theorem claim_C4 (cfg : Config α) (fuel : Nat) (s : State α) (idx1 idx2 : Int)
    (hf : 1 ≤ fuel) (hbuf : 1 ≤ s.buffers.length)
    (hhead : s.bufferIdx < (headBuffer s).length)
    (h10 : 0 ≤ idx1) (h1h : idx1 < (cfg.height : Int))
    (h20 : 0 ≤ idx2) (h2h : idx2 < (cfg.height : Int)) :
    getItem cfg fuel idx1 s = getItem cfg fuel idx2 s ∧
      ∃ v, (headBuffer s)[s.bufferIdx]? = some v ∧
        getItem cfg fuel idx1 s
          = Except.ok (some (v, { s with bufferIdx := s.bufferIdx + 1 })) := by
  have hni1 : ¬ ((cfg.height : Int) ≤ idx1) := by omega
  have hni2 : ¬ ((cfg.height : Int) ≤ idx2) := by omega
  have hready := getItemRaw_ready cfg hf hbuf hhead
  constructor
  · unfold getItem
    rw [if_neg hni1, if_neg hni2]
  · refine ⟨(headBuffer s)[s.bufferIdx], List.getElem?_eq_getElem hhead, ?_⟩
    unfold getItem
    rw [if_neg hni1, hready, readHead, List.getElem?_eq_getElem hhead]

/-- C4 witness: indices 0 and 4 read the same cursor row in `readyS`. -/
theorem claim_C4_witness :
    getItem exCfg 1 0 readyS = getItem exCfg 1 4 readyS ∧
      ∃ v, (headBuffer readyS)[readyS.bufferIdx]? = some v ∧
        getItem exCfg 1 0 readyS
          = Except.ok (some (v, { readyS with bufferIdx := readyS.bufferIdx + 1 })) :=
  claim_C4 exCfg 1 readyS 0 4 (by decide) (by decide) (by decide) (by decide)
    (by decide) (by decide) (by decide)

/-- C5 counterexample: the claim says construction over an empty path set
fails for every value of `features` and no dataset object is produced; but
when a feature projection is supplied, `StreamingDataset.__init__` never
touches `path_sizes[0]` and succeeds, returning a dataset of size
`(len(features), 0)`. -/
theorem claim_C5_counterexample :
    mkStreaming (listProvider 1 ([] : List (List Nat))) (some ["x"]) 3 128
      = Except.ok emptyOkCfg := rfl

/-- C5 amended: over an empty path set, `StreamingDataset.__init__` fails
only when no feature projection is supplied (the `IndexError` from reading
`path_sizes[0]`); with a projection it succeeds with size
`(len(features), 0)`.  The unconditional empty-path rejection lives in
`OxenDataFrameProvider.__init__`, which refuses to construct a provider
over an empty path list, so datasets built through that provider do fail at
construction. -/
theorem claim_C5_amended (nb bs : Nat) :
    (∀ p : Provider α, p.numPaths = 0 →
        mkStreaming p none nb bs
          = Except.error "IndexError: list index out of range") ∧
      (∀ paths : List String, paths = [] →
        oxenDataFrameProviderInit paths
          = Except.error "Paths must not be empty") ∧
      (∀ (p : Provider α) (fs : List String), p.numPaths = 0 →
        ∃ cfg, mkStreaming p (some fs) nb bs = Except.ok cfg ∧
          cfg.width = fs.length ∧ cfg.height = 0) := by
  refine ⟨?_, ?_, ?_⟩
  · intro p h0
    have hps : pathSizesOf p = [] := by
      rw [pathSizesOf, h0]
      rfl
    simp [mkStreaming, hps]
  · intro paths h
    subst h
    rfl
  · intro p fs h0
    have hps : pathSizesOf p = [] := by
      rw [pathSizesOf, h0]
      rfl
    refine ⟨_, rfl, rfl, ?_⟩
    show ((pathSizesOf p).map (fun z => z.2)).sum = 0
    rw [hps]
    rfl

/-- C5 amended witness at concrete empty providers. -/
theorem claim_C5_amended_witness :
    mkStreaming (listProvider 2 ([] : List (List Nat))) none 3 128
      = Except.error "IndexError: list index out of range" ∧
      oxenDataFrameProviderInit [] = Except.error "Paths must not be empty" :=
  ⟨(claim_C5_amended (α := Nat) 3 128).1 (listProvider 2 ([] : List (List Nat))) rfl,
    (claim_C5_amended (α := Nat) 3 128).2.1 [] rfl⟩

/-- C6: for every provider with `N` paths, `len(dataset)` equals the sum of
the per-path heights, and `dataset.size = (width, height)` where `width` is
the feature-projection length when one was supplied and otherwise the
native column width of the first path, and `height` is the sum of heights.
These values are fields of the immutable `Config` record computed eagerly
by `__init__`; no transition of the machine touches them. -/
theorem claim_C6 (p : Provider α) (features : Option (List String)) (nb bs : Nat)
    (cfg : Config α) (hok : mkStreaming p features nb bs = Except.ok cfg) :
    datasetLen cfg = ((List.range p.numPaths).map (fun i => (p.size i).2)).sum ∧
      Config.size cfg
        = ((match features with
            | none => (p.size 0).1
            | some fs => fs.length : Nat),
          ((List.range p.numPaths).map (fun i => (p.size i).2)).sum) := by
  obtain ⟨hpv, hWF, -, -, hh, hwid⟩ := mkStreaming_ok hok
  have hsum : ((pathSizesOf p).map (fun z => z.2)).sum
      = ((List.range p.numPaths).map (fun i => (p.size i).2)).sum := by
    rw [pathSizesOf, List.map_map]
    rfl
  constructor
  · show cfg.height = _
    rw [hh, hsum]
  · show (cfg.width, cfg.height) = _
    rw [hh, hsum, hwid]

/-- C6 witness at `exData` with no projection. -/
theorem claim_C6_witness :
    datasetLen exCfg
        = ((List.range (listProvider 7 exData).numPaths).map
            (fun i => ((listProvider 7 exData).size i).2)).sum ∧
      Config.size exCfg
        = (((listProvider 7 exData).size 0).1,
          ((List.range (listProvider 7 exData).numPaths).map
            (fun i => ((listProvider 7 exData).size i).2)).sum) :=
  claim_C6 (listProvider 7 exData) none 2 2 exCfg rfl

/-- C7: in every state reachable by any interleaving of worker iterations
and consumer `get_item` actions from a freshly constructed dataset (a `WF`
configuration, with the provider honouring the §4.1 truncation contract),
the window never holds more than `num_buffers` buffers — the worker appends
only under the capacity check — `path_idx ≤ len(paths)`, and
`fetch_idx ≤ height`. -/
theorem claim_C7 (cfg : Config α) (hWF : WF cfg) (hT : Truncating cfg.provider)
    {s : State α} (hreach : Reachable cfg s) :
    s.buffers.length ≤ cfg.numBuffers ∧ s.pathIdx ≤ cfg.provider.numPaths ∧
      s.fetchIdx ≤ cfg.height := by
  have hsafe := safeInv_reachable cfg hreach
  have hfetch := fetchInv_reachable cfg hT hWF hreach
  exact ⟨hsafe.buf_le, hsafe.path_le, hfetch.total⟩

/-- C7 witness: the state after one worker iteration from a fresh start. -/
theorem claim_C7_witness :
    (workerStep exCfg initState).buffers.length ≤ exCfg.numBuffers ∧
      (workerStep exCfg initState).pathIdx ≤ exCfg.provider.numPaths ∧
      (workerStep exCfg initState).fetchIdx ≤ exCfg.height :=
  claim_C7 exCfg ⟨rfl, rfl⟩ (listProvider_truncating 7 exData)
    (Relation.ReflTransGen.tail Relation.ReflTransGen.refl (Step.worker initState))

/-- C8 counterexample: the claimed invariant `buffer_idx < len(head)` for a
non-empty window fails in a reachable state: after the worker fetches the
single one-row buffer and the consumer reads its row, the exhausted head is
left at the head of the window with `buffer_idx` equal to its length —
eviction is deferred to the next `get_item` call (and only fires when more
than one buffer is queued), it does not happen upon consuming the last
row. -/
theorem claim_C8_counterexample :
    ∃ s : State Nat, Reachable oneCfg s ∧ s.buffers ≠ [] ∧
      ¬ (s.bufferIdx < (headBuffer s).length) := by
  refine ⟨{ pathIdx := 1, fetchIdx := 1, bufferIdx := 1, buffers := [[0]], workerDone := false }, ?_, by decide, by decide⟩
  have h1 : Step oneCfg initState (workerStep oneCfg initState) :=
    Step.worker initState
  have h2 : Step oneCfg
      { pathIdx := 1, fetchIdx := 1, bufferIdx := 0, buffers := [[0]], workerDone := false }
      { pathIdx := 1, fetchIdx := 1, bufferIdx := 1, buffers := [[0]], workerDone := false } :=
    Step.read _ 0 _ rfl
  exact Relation.ReflTransGen.tail
    (Relation.ReflTransGen.tail Relation.ReflTransGen.refl h1) h2

/-- C8 amended: in every reachable state the cursor satisfies
`buffer_idx ≤ len(head)` whenever the window is non-empty (and
`buffer_idx = 0` while it is empty); every row actually read by `get_item`
is read at `buffer_idx < len(head)`; and an exhausted head is evicted not
immediately but by the eviction transition, which is enabled exactly when
the head is exhausted and more than one buffer is queued — it pops the head
and resets `buffer_idx` to 0. -/
theorem claim_C8_amended (cfg : Config α) {s : State α} (hreach : Reachable cfg s) :
    (s.buffers = [] → s.bufferIdx = 0) ∧
      s.bufferIdx ≤ (headBuffer s).length ∧
      (∀ v s1, readHead s = some (v, s1) → s.bufferIdx < (headBuffer s).length) ∧
      (1 < s.buffers.length → (headBuffer s).length ≤ s.bufferIdx →
        Step cfg s (popHead s) ∧ (popHead s).buffers = s.buffers.tail ∧
          (popHead s).bufferIdx = 0) := by
  have hsafe := safeInv_reachable cfg hreach
  refine ⟨hsafe.idx_empty, hsafe.idx_le, ?_, ?_⟩
  · intro v s1 hr
    exact (readHead_some hr).1
  · intro h1 h2
    exact ⟨Step.pop s h1 h2, rfl, rfl⟩

/-- C8 amended witness at the post-read state over `oneCfg`. -/
theorem claim_C8_amended_witness :
    ({ pathIdx := 1, fetchIdx := 1, bufferIdx := 1, buffers := [[0]], workerDone := false } : State Nat).bufferIdx
      ≤ (headBuffer { pathIdx := 1, fetchIdx := 1, bufferIdx := 1, buffers := [[0]], workerDone := false }).length := by
  have h := claim_C8_amended oneCfg (s := { pathIdx := 1, fetchIdx := 1, bufferIdx := 1, buffers := [[0]], workerDone := false })
    (Relation.ReflTransGen.tail
      (Relation.ReflTransGen.tail Relation.ReflTransGen.refl (Step.worker initState))
      (Step.read _ 0 _ rfl))
  exact h.2.1

/-- C9: the prefetch worker loop exits exactly when `path_idx` has reached
the path count (the `workerDone` flag is set on an iteration precisely when
`path_idx ≥ len(paths)` or it was already set); the exit is permanent — a
returned worker performs no further fetches or cursor writes, and the model
has no restart or shutdown transition; and over a provider with accurate
sizes whose slices return at least one row while rows remain (and
`buffer_size ≥ 1`), any interleaved execution performs at most
`mu(initial state)` fetch steps — finitely many. -/
theorem claim_C9 (cfg : Config α) (hWF : WF cfg) (hT : Truncating cfg.provider)
    (hP : Progressing cfg.provider) (hbs : 1 ≤ cfg.bufferSize) :
    (∀ s : State α, ((workerStep cfg s).workerDone = true ↔
        (s.workerDone = true ∨ cfg.provider.numPaths ≤ s.pathIdx))) ∧
      (∀ s : State α, s.workerDone = true → workerStep cfg s = s) ∧
      (∀ (s0 : State α) (l : List (State α)), IsTrace cfg (s0 :: l) →
        FetchInv cfg s0 → fetchCount (s0 :: l) ≤ mu cfg s0) := by
  refine ⟨?_, ?_, ?_⟩
  · intro s
    by_cases hd : s.workerDone = true
    · rw [workerStep_eq_done cfg hd, hd]
      simp
    · have hd2 : s.workerDone = false := by
        revert hd
        cases s.workerDone <;> simp
      by_cases hN : cfg.provider.numPaths ≤ s.pathIdx
      · rw [workerStep_eq_setDone cfg hd2 hN]
        simp [hN]
      · by_cases hcap : s.buffers.length < cfg.numBuffers
        · rw [workerStep_eq_fetch cfg hd2 (by omega) hcap]
          have hwd : (fetchNextBuffer cfg s).2.workerDone = s.workerDone :=
            ((fetchNextBuffer_frame cfg s).2.2).1
          show (fetchNextBuffer cfg s).2.workerDone = true ↔ _
          rw [hwd, hd2]
          simp [hN]
        · rw [workerStep_eq_full cfg hd2 (by omega) hcap, hd2]
          simp [hN]
  · intro s hd
    exact workerStep_eq_done cfg hd
  · intro s0 l htr hinv
    exact trace_fetchCount_le cfg hT hP hWF hbs l s0 htr hinv

/-- C9 witness: a two-state trace over `oneCfg` performing one fetch. -/
theorem claim_C9_witness :
    ((workerStep oneCfg (initState (α := Nat))).workerDone = true ↔
        ((initState (α := Nat)).workerDone = true ∨
          oneCfg.provider.numPaths ≤ (initState (α := Nat)).pathIdx)) ∧
      fetchCount [initState (α := Nat), workerStep oneCfg initState]
        ≤ mu oneCfg initState := by
  obtain ⟨h1, h2, h3⟩ := claim_C9 oneCfg ⟨rfl, rfl⟩
    (listProvider_truncating 1 oneData) (listProvider_progressing 1 oneData)
    (by decide)
  exact ⟨h1 initState,
    h3 initState [workerStep oneCfg initState] ⟨Step.worker _, trivial⟩
      (fetchInv_init oneCfg)⟩

/-- C10: zero-height paths are tolerated without corrupting the stream:
a worker fetch positioned on a zero-height path enqueues one empty buffer,
leaves `fetch_idx` unchanged and advances `path_idx` past that path; the
consumer evicts an exhausted or empty head once a successor buffer is
queued (the eviction transition pops the head and resets the cursor); and
full iteration over data containing zero-height paths still yields exactly
the rows of the non-empty paths, in order. -/
theorem claim_C10 (w nb bs : Nat) (data : List (List α)) (cfg : Config α)
    (hok : mkStreaming (listProvider w data) none nb bs = Except.ok cfg)
    (hz : [] ∈ data) (hnb : 2 ≤ nb) (hbs : 1 ≤ bs) :
    (∀ s : State α, FetchInv cfg s → s.pathIdx < cfg.provider.numPaths →
      (heights cfg).getD s.pathIdx 0 = 0 →
        (fetchNextBuffer cfg s).1 = [] ∧
          (fetchNextBuffer cfg s).2.fetchIdx = s.fetchIdx ∧
          (fetchNextBuffer cfg s).2.pathIdx = s.pathIdx + 1) ∧
      (∀ s : State α, s.workerDone = false → s.pathIdx < cfg.provider.numPaths →
        s.buffers.length < cfg.numBuffers → FetchInv cfg s →
        (heights cfg).getD s.pathIdx 0 = 0 →
          (workerStep cfg s).buffers = s.buffers ++ [[]]) ∧
      (∀ s : State α, 1 < s.buffers.length → (headBuffer s).length ≤ s.bufferIdx →
        Step cfg s (popHead s) ∧ (popHead s).buffers = s.buffers.tail ∧
          (popHead s).bufferIdx = 0) ∧
      (∃ fuel, iterateAll cfg fuel = some data.flatten ∧
        data.flatten = (data.filter (fun l => !l.isEmpty)).flatten) := by
  obtain ⟨hpv, hWF, hnb2, hbs2, -, -⟩ := mkStreaming_ok hok
  refine ⟨?_, ?_, ?_, ?_⟩
  · intro s hfinv hlt hzero
    exact fetch_zero_path cfg hWF w data hpv hfinv hlt hzero
  · intro s hd hlt hcap hfinv hzero
    rw [workerStep_eq_fetch cfg hd hlt hcap]
    show s.buffers ++ [(fetchNextBuffer cfg s).1] = s.buffers ++ [[]]
    rw [(fetch_zero_path cfg hWF w data hpv hfinv hlt hzero).1]
  · intro s h1 h2
    exact ⟨Step.pop s h1 h2, rfl, rfl⟩
  · exact ⟨loopMeasure cfg (initState (α := α)) + 1,
      iterate_flatten cfg data hWF w hpv (by omega) (by omega),
      flatten_filter_nonempty data⟩

/-- C10 witness: the zero-height middle path of `exData`. -/
theorem claim_C10_witness :
    ((fetchNextBuffer exCfg midExS).1 = [] ∧
        (fetchNextBuffer exCfg midExS).2.fetchIdx = midExS.fetchIdx ∧
        (fetchNextBuffer exCfg midExS).2.pathIdx = midExS.pathIdx + 1) ∧
      (∃ fuel, iterateAll exCfg fuel = some exData.flatten ∧
        exData.flatten = (exData.filter (fun l => !l.isEmpty)).flatten) := by
  obtain ⟨h1, h2, h3, h4⟩ :=
    claim_C10 7 2 2 exData exCfg rfl (by decide) (by decide) (by decide)
  exact ⟨h1 midExS ⟨by decide, by decide, by decide, by decide⟩ (by decide) (by decide),
    h4⟩

end StreamingData
